import Mathlib

/-!
Verification development for the parsers_lib repository: a shallow embedding of
the grammar model (`grammar.py`), the Earley recognizer (`earleay_parser.py`),
the FIRST_k engine, the canonical LR(k) collection and the LR table compiler
(`_lr_parser_helpers.py`) and the LR driver (`lr_parser.py`).

Modelling conventions:
* Python `str` tokens are Lean `String`s; the character-level pipeline uses
  one-character strings as tokens, with `""` as the LR end-of-input sentinel.
* Python `set`s are modelled as duplicate-free `List`s with deterministic
  (insertion) order; `set.pop` is modelled as popping the head (FIFO).  All the
  set-valued results of the algorithms are order-independent, and for the
  closure loop this order-independence is itself proved (`WorkRun` confluence).
* Mutable caches and registries are threaded explicitly as state.
* Python exceptions are modelled with `Except`: each distinct runtime error of
  the source has its own constructor (`attributeError` corresponds to the
  `next_item.isTerminal()` call in `earleay_parser.py`, which does not exist on
  grammar symbols - they only define `is_terminal`).
* Loops whose termination is not structural carry a fuel parameter; fuel
  exhaustion is reported as the distinguished error `fuelOut`, and all concrete
  evaluations below are run with enough fuel for it never to occur.
-/

deriving instance DecidableEq for Except

namespace PL

/-- Tokens of the character-level pipeline: Python strings. -/
abbrev Tok := String

/-- Grammar symbols (`grammar.py`): a `Nonterminal` (identified by name), a
`StrTerminal` (carrying a string value), or a custom user terminal type that is
not a `StrTerminal` (modelled with a tag and a representative token). -/
inductive Sym where
  | nt (name : String)
  | tm (value : String)
  | custom (tag : Nat) (token : Tok)
deriving DecidableEq, Repr

/-- Python `BaseSymbol.is_terminal`. -/
def Sym.isTerminalS : Sym → Bool
  | .nt _ => false
  | .tm _ => true
  | .custom _ _ => true

/-- Python `Terminal.get_token` (only meaningful on terminals). -/
def Sym.getToken : Sym → Tok
  | .nt n => n
  | .tm v => v
  | .custom _ t => t

/-- Python `Terminal.matches` (default implementation `self.value == token`,
which is what both `StrTerminal` and the custom terminals of the tests use). -/
def Sym.matches : Sym → Tok → Bool
  | .nt _, _ => false
  | .tm v, t => v == t
  | .custom _ v, t => v == t

/-- Python `Rule` (`grammar.py`): an lhs nonterminal (by name, since
`Nonterminal` is determined by its name) and a tuple of symbols. -/
structure Rule where
  lhs : String
  rhs : List Sym
deriving DecidableEq, Repr

/-- Python `len(rule)`. -/
def Rule.rlen (r : Rule) : Nat := r.rhs.length

/-- List insertion keeping set semantics (no duplicates): used to model the
`set.add` operations of the source with a deterministic order. -/
def insAbsent {α : Type} [DecidableEq α] (l : List α) (x : α) : List α :=
  if x ∈ l then l else l ++ [x]

/-- Python `set.update`: fold `insAbsent` over the added collection. -/
def setUnion {α : Type} [DecidableEq α] (l adds : List α) : List α :=
  adds.foldl insAbsent l

/-- Equality of two lists viewed as sets (Python `set`/`frozenset` equality). -/
def sameSet {α : Type} [DecidableEq α] (a b : List α) : Bool :=
  a.all (· ∈ b) && b.all (· ∈ a)

/-- Python `Grammar` (`grammar.py`): a set of rules (modelled as a nodup
insertion-ordered list), the nonterminal registry (insertion-ordered names) and
the designated start name. -/
structure Grammar where
  rules : List Rule
  nts : List String
  start : String
deriving DecidableEq, Repr

/-- The reserved augmented-start name used by `Grammar.new_start`. -/
def newStartName : String := "__new_start__"

/-- Python `Grammar.ensure_nonterminal` (registration part). -/
def Grammar.ensureNt (g : Grammar) (n : String) : Grammar :=
  if n ∈ g.nts then g else { g with nts := g.nts ++ [n] }

/-- The set-insertion step of `Grammar.add_rule`. -/
def Grammar.insertRule (g : Grammar) (r : Rule) : Grammar :=
  if r ∈ g.rules then g else { g with rules := g.rules ++ [r] }

/-- Python `Grammar.add_rule`: register the lhs and every rhs nonterminal (in
`Rule.get_nonterminals` order), then add the rule to the rule set. -/
def Grammar.addRule (g : Grammar) (r : Rule) : Grammar :=
  ((r.rhs.foldl (fun g s => match s with
    | .nt n => g.ensureNt n
    | _ => g) (g.ensureNt r.lhs))).insertRule r

/-- Build a grammar from a list of rules added in order, starting from the
empty grammar with the given start name (Python `Grammar(rules, start)` adds
rules via a set and registers each lhs; rule-by-rule `add_rule` is equivalent
and is what the metaparser does). -/
def mkGrammar (start : String) (rs : List Rule) : Grammar :=
  rs.foldl Grammar.addRule { rules := [], nts := [], start := start }

/-- Runtime errors of the embedded code. -/
inductive PErr where
  | keyError
  | assertionError
  | attributeError
  | valueError
  | fuelOut
deriving DecidableEq, Repr

/-- Python `Grammar.get_rules_by_lhs` (filters by lhs equality; the underlying
set is iterated in our deterministic list order). -/
def Grammar.rulesByLhsOf (g : Grammar) (lhs : String) : List Rule :=
  g.rules.filter (fun r => r.lhs == lhs)

/-- Python `Grammar.new_start` trigger: the first access of the cached property
adds the rule `S' -> S`; later accesses are no-ops.  The identity-based cache
of `cached_property` is modelled by the presence of the reserved name in the
registry (the source asserts the reserved name is never user-registered).
Resolving the start raises `KeyError` when the start name is unregistered. -/
def Grammar.triggerNewStart (g : Grammar) : Except PErr Grammar :=
  if newStartName ∈ g.nts then .ok g
  else if g.start ∈ g.nts then
    .ok (g.addRule { lhs := newStartName, rhs := [.nt g.start] })
  else .error .keyError

/-- Per-symbol transform of `Grammar.split_long_terminals`: nonterminals are
kept, `StrTerminal`s are split into their single-character terminals (empty
ones are deleted), and any other terminal type is dropped.  An rhs occurrence
of the augmented start violates the source's assertion. -/
def splitSym : Sym → Except PErr (List Sym)
  | .nt n => if n = newStartName then .error .assertionError else .ok [.nt n]
  | .tm v => .ok (v.toList.map (fun c => .tm (String.mk [c])))
  | .custom _ _ => .ok []

/-- Transform one rule's rhs for `split_long_terminals`. -/
def splitRhs : List Sym → Except PErr (List Sym)
  | [] => .ok []
  | s :: rest => do
    let hd ← splitSym s
    let tl ← splitRhs rest
    .ok (hd ++ tl)

/-- Python `Grammar.split_long_terminals`: resolves the start (possible
`KeyError`), triggers `new_start` on the receiver (a mutation when the
augmented start does not exist yet), and builds a fresh grammar from the
transformed rules, skipping the augmented-start rule.  Returns the (possibly
mutated) receiver together with the new grammar. -/
def Grammar.splitLongTerminals (g : Grammar) : Except PErr (Grammar × Grammar) := do
  if g.start ∈ g.nts then
    let g ← g.triggerNewStart
    let newG ← g.rules.foldlM (fun (acc : Grammar) r => do
      if r.lhs = newStartName then
        .ok acc
      else do
        let rhs ← splitRhs r.rhs
        .ok (acc.addRule { lhs := r.lhs, rhs := rhs }))
      { rules := [], nts := [], start := g.start }
    .ok (g, newG)
  else .error .keyError

/-! ## Earley recognizer (`earleay_parser.py`) -/

/-- Python Earley `State`: `(rule, rule_pos, start_offset)`. -/
structure EItem where
  rule : Rule
  rulePos : Nat
  startOffset : Nat
deriving DecidableEq, Repr

/-- Python `State.get_next_item`. -/
def EItem.nextSym (s : EItem) : Option Sym := s.rule.rhs.get? s.rulePos

/-- Python `State.shifted`. -/
def EItem.shifted (s : EItem) : EItem := { s with rulePos := s.rulePos + 1 }

/-- Python Earley `Table`: the closed `states` set and the pending
`new_states` set, modelled as nodup lists with FIFO processing. -/
structure ETable where
  closed : List EItem
  pending : List EItem
deriving DecidableEq, Repr

/-- Python `Table.add_state` (skip if already closed; the pending set
deduplicates). -/
def ETable.addState (t : ETable) (s : EItem) : ETable :=
  if s ∈ t.closed then t
  else if s ∈ t.pending then t
  else { t with pending := t.pending ++ [s] }

/-- Python `EarleyParserConfig`: the augmented start rule and `rules_by_lhs`. -/
structure EConfig where
  startRule : Rule
  rulesByLhs : List (String × List Rule)
deriving DecidableEq, Repr

/-- Association-list lookup (Python `dict.__getitem__` / `dict.get`). -/
def alistGet? {α β : Type} [DecidableEq α] (l : List (α × β)) (k : α) : Option β :=
  match l.find? (fun p => p.1 == k) with
  | some p => some p.2
  | none => none

/-- Python `dict.setdefault(lhs, []).append(rule)` used to build
`rules_by_lhs`. -/
def alistAppend (l : List (String × List Rule)) (k : String) (r : Rule) :
    List (String × List Rule) :=
  match l with
  | [] => [(k, [r])]
  | (k', rs) :: rest =>
    if k' == k then (k', rs ++ [r]) :: rest else (k', rs) :: alistAppend rest k r

/-- Python `utils.only`: the sole element of a collection, else `ValueError`. -/
def onlyOf {α : Type} : List α → Except PErr α
  | [x] => .ok x
  | _ => .error .valueError

/-- Python `EarleyParserConfig.__init__`: split the grammar (which mutates the
receiver, discarded here), fetch the unique augmented-start rule of the new
grammar (triggering its augmentation) and build `rules_by_lhs`. -/
def earleyConfig (g : Grammar) : Except PErr EConfig := do
  let (_, g2) ← g.splitLongTerminals
  if g2.start ∈ g2.nts then
    let g3 ← g2.triggerNewStart
    let startRule ← onlyOf (g3.rulesByLhsOf newStartName)
    .ok { startRule := startRule
          rulesByLhs := g3.rules.foldl (fun acc r => alistAppend acc r.lhs r) [] }
  else .error .keyError

/-- One chart-position closure of `EarleyParser._step`: process pending items
until none remain.  `faithful = true` reproduces the source exactly: on an
item whose next symbol exists, the source evaluates `next_item.isTerminal()`,
an attribute that neither `Nonterminal` nor any `Terminal` defines (they define
`is_terminal`), so an `AttributeError` is raised.  `faithful = false` runs the
evidently intended dispatch (`is_terminal`) instead: scan on terminals, predict
on nonterminals. -/
def earleyLoop (cfg : EConfig) (faithful : Bool) (prev : List (List EItem))
    (tok : Option Tok) : ETable → ETable → Nat →
    Except PErr (List EItem × ETable)
  | _, _, 0 => .error .fuelOut
  | cur, nxt, fuel + 1 =>
    match cur.pending with
    | [] => .ok (cur.closed, nxt)
    | x :: rest =>
      let cur : ETable := { closed := cur.closed ++ [x], pending := rest }
      match x.nextSym with
      | none =>
        -- complete: iterate a snapshot of the table at `start_offset`
        let parents : List EItem :=
          if x.startOffset = prev.length then cur.closed ++ cur.pending
          else (prev.get? x.startOffset).getD []
        let cur := parents.foldl (fun (t : ETable) p =>
          if p.nextSym == some (.nt x.rule.lhs) then t.addState p.shifted else t) cur
        earleyLoop cfg faithful prev tok cur nxt fuel
      | some s =>
        if faithful then .error .attributeError
        else if s.isTerminalS then
          -- scan
          let nxt := match tok with
            | none => nxt
            | some t => if s.matches t then nxt.addState x.shifted else nxt
          earleyLoop cfg faithful prev tok cur nxt fuel
        else
          -- predict
          match s with
          | .nt name =>
            match alistGet? cfg.rulesByLhs name with
            | none => .error .keyError
            | some rs =>
              let cur := rs.foldl (fun (t : ETable) r =>
                t.addState { rule := r, rulePos := 0, startOffset := prev.length }) cur
              earleyLoop cfg faithful prev tok cur nxt fuel
          | _ => .error .attributeError

/-- Fuel used by every concrete Earley evaluation below. -/
def earleyFuel : Nat := 2000

/-- Python `Table.is_successful` (note: the source checks only the rule and the
dot, not the start offset). -/
def isSuccessful (startRule : Rule) (closed : List EItem) : Bool :=
  closed.any (fun s => s.rule == startRule && s.rulePos == s.rule.rlen)

/-- The token-consuming loop of `EarleyParser.parse`: one `_step` per token,
then the sentinel `_step(None)`, then `is_successful` on the last closed
table. -/
def earleyRun (cfg : EConfig) (faithful : Bool) (prev : List (List EItem))
    (cur : ETable) : List Tok → Except PErr Bool
  | [] => do
    let (closedCur, _) ← earleyLoop cfg faithful prev none cur ⟨[], []⟩ earleyFuel
    .ok (isSuccessful cfg.startRule closedCur)
  | t :: ts => do
    let (closedCur, nxt) ← earleyLoop cfg faithful prev (some t) cur ⟨[], []⟩ earleyFuel
    earleyRun cfg faithful (prev ++ [closedCur]) nxt ts

/-- Python `EarleyParser.parse` after `feed(tokens)`. -/
def earleyParse (cfg : EConfig) (faithful : Bool) (toks : List Tok) :
    Except PErr Bool :=
  earleyRun cfg faithful [] { closed := [], pending := [⟨cfg.startRule, 0, 0⟩] } toks

/-- Tokens of a character string under `CharTokenizer`: its characters as
one-character strings. -/
def charToks (s : String) : List Tok := s.toList.map (fun c => String.mk [c])

/-! ## FIRST_k engine (`_lr_parser_helpers.py`, `FirstKProvider`) -/

/-- A lookahead tuple: at most `k` tokens. -/
abbrev Tup := List Tok

/-- The symbol-expansion cache `_symbol_expansion_cache`, threaded explicitly.
Each entry is a Python set of tuples, modelled as a nodup list. -/
abbrev FCache := List (Sym × List Tup)

/-- Read a cache entry (empty when the symbol is uncached — only used after a
`setdefault`). -/
def cacheGet (c : FCache) (s : Sym) : List Tup :=
  match c.find? (fun p => p.1 == s) with
  | some p => p.2
  | none => []

/-- Membership of a symbol in the cache. -/
def cacheHas (c : FCache) (s : Sym) : Bool := c.any (fun p => p.1 == s)

/-- Python `dict.setdefault(symbol, set())`. -/
def cacheSetDefault (c : FCache) (s : Sym) : FCache :=
  if cacheHas c s then c else c ++ [(s, [])]

/-- Update a cache entry in place with a set-update (the source mutates the
aliased set object). -/
def cacheUpdate (c : FCache) (s : Sym) (adds : List Tup) : FCache :=
  c.map (fun p => if p.1 == s then (p.1, setUnion p.2 adds) else p)

/-- Python `FirstKProvider._set_minkovsky_sum` (a set comprehension over the
product, in deterministic order). -/
def minkovskySum (a b : List Tup) : List Tup :=
  a.foldl (fun acc x => b.foldl (fun acc y => insAbsent acc (x ++ y)) acc) []

/-- Python `FirstKProvider._sufficient_repetitions` = `k * len(rules)`. -/
def sufficientReps (g : Grammar) (k : Nat) : Nat := k * g.rules.length

/-- The three mutually recursive cache-filling operations of
`FirstKProvider`, as one structurally fuel-recursive function (so that the
kernel can evaluate it): `.symE` is `_expand_symbol`, `.doE` is
`_do_expand_symbol`, `.seqE` is `_expand_sequence`.  Fuel only bounds the
nesting depth of uncached expansions (the source's recursion terminates
because each nested call either hits the cache or caches the symbol first);
it is never exhausted in the evaluations below. -/
inductive ExpandArg where
  | symE (s : Sym) (explicit : Bool)
  | doE (s : Sym)
  | seqE (syms : List Sym)

/-- Merge a `_do_expand_symbol` result into the symbol's cache entry. -/
def symEMerge (s : Sym) (pr : List Tup × FCache) : FCache :=
  match pr with
  | (r, c) => cacheUpdate c s r

/-- One inner round of `_expand_symbol`: recompute `_do_expand_symbol` and
merge the result into the (aliased) cache entry of the symbol. -/
def symERound (expDo : FCache → List Tup × FCache) (s : Sym) (c : FCache) :
    FCache :=
  symEMerge s (expDo c)

/-- Union a sequence expansion into the running `_do_expand_symbol` result. -/
def doEMerge (res : List Tup) (pr : List Tup × FCache) : List Tup × FCache :=
  match pr with
  | (r, c) => (setUnion res r, c)

/-- One rule of `_do_expand_symbol`: union in the rule's sequence expansion. -/
def doEStep (expSeq : FCache → List Sym → List Tup × FCache)
    (acc : List Tup × FCache) (r : Rule) : List Tup × FCache :=
  match acc with
  | (res, c) => doEMerge res (expSeq c r.rhs)

/-- Partition the Minkowski-extended running products of `_expand_sequence`:
tuples that reached length `k` are truncated and emitted, the rest propagate. -/
def seqESplit (k : Nat) (result : List Tup) (mink : List Tup) (c : FCache) :
    List Tup × List Tup × FCache :=
  (setUnion result ((mink.filter (fun r => k ≤ r.length)).map
      (fun r => r.take k)),
    mink.filter (fun r => ¬ k ≤ r.length), c)

/-- Fold one child expansion into the `_expand_sequence` accumulator. -/
def seqEMerge (k : Nat) (result curResult : List Tup)
    (es : List Tup × FCache) : List Tup × List Tup × FCache :=
  match es with
  | (e, c) => seqESplit k result (minkovskySum curResult e) c

/-- One child symbol of `_expand_sequence`. -/
def seqEStep (exp : FCache → Sym → List Tup × FCache) (k : Nat)
    (acc : List Tup × List Tup × FCache) (s : Sym) :
    List Tup × List Tup × FCache :=
  match acc with
  | (result, curResult, c) => seqEMerge k result curResult (exp c s)

/-- The final `result.update(r[:k] for r in cur_result)` of
`_expand_sequence`. -/
def seqEFinish (k : Nat) (step : List Tup × List Tup × FCache) :
    List Tup × FCache :=
  match step with
  | (result, curResult, c) =>
    (setUnion result (curResult.map (fun r => r.take k)), c)

/-- Python `FirstKProvider._expand_symbol` / `_do_expand_symbol` /
`_expand_sequence` (see `ExpandArg`):
`_expand_symbol` returns the cached set unless the symbol is uncached or
`explicit`; in that case it inserts an empty entry first (so self-references
terminate) and folds `_sufficient_repetitions` rounds of `_do_expand_symbol`
into the aliased entry.  `_do_expand_symbol` expands a terminal to its own
token and a nonterminal to the union of its rules' sequence expansions.
`_expand_sequence` Minkowski-folds the child expansions. -/
def expandFuel (g : Grammar) (k : Nat) : Nat → ExpandArg → FCache →
    List Tup × FCache
  | 0, _, c => ([], c)
  | fuel + 1, .symE s explicit, c =>
    if cacheHas c s && !explicit then (cacheGet c s, c)
    else
      let c := (List.range (sufficientReps g k)).foldl (fun c _ =>
        symERound (expandFuel g k fuel (.doE s)) s c) (cacheSetDefault c s)
      (cacheGet c s, c)
  | fuel + 1, .doE s, c =>
    if s.isTerminalS then ([[s.getToken]], c)
    else
      (g.rulesByLhsOf (match s with | .nt n => n | _ => "")).foldl
        (doEStep (fun c rhs => expandFuel g k fuel (.seqE rhs) c)) ([], c)
  | fuel + 1, .seqE syms, c =>
    seqEFinish k (syms.foldl
      (seqEStep (fun c s => expandFuel g k fuel (.symE s false) c) k)
      ([], [[]], c))

/-- Python `FirstKProvider._expand_symbol`. -/
def expandSymbol (g : Grammar) (k : Nat) (fuel : Nat) (c : FCache) (s : Sym)
    (explicit : Bool) : List Tup × FCache :=
  expandFuel g k fuel (.symE s explicit) c

/-- Python `FirstKProvider._expand_sequence`. -/
def expandSequence (g : Grammar) (k : Nat) (fuel : Nat) (c : FCache)
    (syms : List Sym) : List Tup × FCache :=
  expandFuel g k fuel (.seqE syms) c

/-- Fuel for the uncached-expansion nesting: never exhausted in practice, the
nesting depth is bounded by the number of distinct grammar symbols. -/
def firstKFuel : Nat := 200

/-- Python `FirstKProvider` after `__init__`: the grammar is augmented first,
then `_prepare` runs `_sufficient_repetitions` rounds of explicit expansion
over the registered nonterminals (in registry order). -/
structure FirstKProv where
  g : Grammar
  k : Nat
  cache : FCache
deriving DecidableEq, Repr

/-- Python `FirstKProvider._prepare` starting from an empty cache. -/
def prepareFirstK (g : Grammar) (k : Nat) : FCache :=
  (List.range (sufficientReps g k)).foldl (fun c _ =>
    g.nts.foldl (fun c n =>
      (expandSymbol g k firstKFuel c (.nt n) true).2) c) []

/-- Python `FirstKProvider.__init__` (triggers grammar augmentation, then
prepares the cache). -/
def mkFirstKProv (g : Grammar) (k : Nat) : Except PErr FirstKProv := do
  let g ← g.triggerNewStart
  .ok { g := g, k := k, cache := prepareFirstK g k }

/-- Python `FirstKProvider.first_k(rule_symbols, continuation)`: expand the
sequence, then pad each result with the continuation up to `k` tokens.  The
cache mutation is threaded (after `_prepare` all grammar symbols are cached, so
queries leave the cache unchanged). -/
def firstKQueryC (g : Grammar) (k : Nat) (c : FCache) (syms : List Sym)
    (cont : Tup) : List Tup × FCache :=
  let (res, c) := expandSequence g k firstKFuel c syms
  (res.foldl (fun acc r => insAbsent acc (r ++ cont.take (k - r.length))) [], c)

/-- The cached-provider form of `first_k`. -/
def firstKQuery (p : FirstKProv) (syms : List Sym) (cont : Tup) :
    List Tup × FCache :=
  firstKQueryC p.g p.k p.cache syms cont

/-! ## Canonical collection V_G^k (`_lr_parser_helpers.py`, `VGkBuilder`) -/

/-- Python LR `State`: `(rule, rule_pos, continuation)` with a lookahead tuple
of at most `k` tokens. -/
structure LItem where
  rule : Rule
  rulePos : Nat
  cont : Tup
deriving DecidableEq, Repr

/-- Python `State.get_next_item` for LR items. -/
def LItem.nextSym (s : LItem) : Option Sym := s.rule.rhs.get? s.rulePos

/-- Python `State.shifted` for LR items. -/
def LItem.shifted (s : LItem) : LItem := { s with rulePos := s.rulePos + 1 }

/-- Python LR `Table` (an `UpdateableSet` of items). -/
structure LTable where
  closed : List LItem
  pending : List LItem
deriving DecidableEq, Repr

/-- Python `UpdateableSet.add` (skip when closed; the pending set dedups). -/
def LTable.addItem (t : LTable) (s : LItem) : LTable :=
  if s ∈ t.closed then t
  else if s ∈ t.pending then t
  else { t with pending := t.pending ++ [s] }

/-- Python `VGkBuilder._complete_table`: pop pending items (FIFO model of
`set.pop`); for an item with a nonterminal after the dot, query
`first_k(rhs[dot+1:], continuation)` and predict every rule of that
nonterminal under every resulting lookahead.  The FIRST_k cache is threaded
(queries after `_prepare` always hit the cache). -/
def completeTable (g : Grammar) (k : Nat) : LTable → FCache → Nat →
    Except PErr (List LItem × FCache)
  | _, _, 0 => .error .fuelOut
  | t, c, fuel + 1 =>
    match t.pending with
    | [] => .ok (t.closed, c)
    | x :: rest =>
      let t : LTable := { closed := t.closed ++ [x], pending := rest }
      match x.nextSym with
      | none => completeTable g k t c fuel
      | some s =>
        if s.isTerminalS then completeTable g k t c fuel
        else
          match s with
          | .nt name =>
            let (conts, c) := firstKQueryC g k c (x.rule.rhs.drop (x.rulePos + 1)) x.cont
            let t := (g.rulesByLhsOf name).foldl (fun t r =>
              conts.foldl (fun (t : LTable) u =>
                t.addItem { rule := r, rulePos := 0, cont := u }) t) t
            completeTable g k t c fuel
          | _ => completeTable g k t c fuel

/-- A node of the canonical collection: Python `FrozenTable` objects have
identity; nodes are addressed by an allocation index, with `values` the frozen
item set (insertion-ordered list, compared as a set) and `gotos` its mutable
edge map. -/
structure VNode where
  values : List LItem
  gotos : List (Sym × Nat)
deriving DecidableEq, Repr

/-- The builder state: all allocated `FrozenTable` objects, the registry
`_tables` (ids of tables actually installed, in insertion order), the pending
part of the registry worklist, and the FIRST_k cache. -/
structure VSt where
  nodes : List VNode
  registry : List Nat
  worklist : List Nat
  cache : FCache
deriving DecidableEq, Repr

/-- Values of a node id. -/
def VSt.valuesOf (st : VSt) (id : Nat) : List LItem :=
  ((st.nodes.get? id).map VNode.values).getD []

/-- Fuel for each table closure. -/
def closureFuel : Nat := 3000

/-- Install one closed table as a fresh frozen object: the fresh id is
returned in every case, but it is added to the registry (`self._tables`) and
its worklist only when no value-equal table is registered yet. -/
def installTable (st : VSt) (closed : List LItem) (c : FCache) : Nat × VSt :=
  if st.registry.any (fun rid => sameSet (st.valuesOf rid) closed) then
    (st.nodes.length,
      { st with nodes := st.nodes ++ [{ values := closed, gotos := [] }],
                cache := c })
  else
    (st.nodes.length,
      { nodes := st.nodes ++ [{ values := closed, gotos := [] }],
        registry := st.registry ++ [st.nodes.length],
        worklist := st.worklist ++ [st.nodes.length], cache := c })

/-- Python `VGkBuilder._add_table`: close the table, allocate a fresh frozen
object, install it in the registry only when no value-equal table is already
registered, and return the fresh object (not the registry-canonical one!) in
every case. -/
def addTable (g : Grammar) (k : Nat) (st : VSt) (pend : List LItem) :
    Except PErr (Nat × VSt) := do
  let pr ← completeTable g k { closed := [], pending := pend } st.cache closureFuel
  .ok (installTable st pr.1 pr.2)

/-- Python `VGkBuilder._goto`: group the shifted items of a frozen table by the
symbol after the dot (`dict.setdefault`, insertion-ordered). -/
def gotoMap (values : List LItem) : List (Sym × List LItem) :=
  values.foldl (fun acc x =>
    match x.nextSym with
    | none => acc
    | some s =>
      let rec upd : List (Sym × List LItem) → List (Sym × List LItem)
        | [] => [(s, [x.shifted])]
        | (s', items) :: rest =>
          if s' == s then (s', insAbsent items x.shifted) :: rest
          else (s', items) :: upd rest
      upd acc) []

/-- Install one goto edge on a node. -/
def VSt.addGoto (st : VSt) (id : Nat) (s : Sym) (tid : Nat) : VSt :=
  match st.nodes.get? id with
  | none => st
  | some nd =>
    { st with nodes := st.nodes.set id { nd with gotos := nd.gotos ++ [(s, tid)] } }

/-- One goto-edge installation of the `VGkBuilder.build` loop body:
`table.gotos[symbol] = self._add_table(next_table)`. -/
def processEdge (g : Grammar) (k : Nat) (id : Nat) (st : VSt)
    (e : Sym × List LItem) : Except PErr VSt := do
  let pr ← addTable g k st e.2
  .ok (pr.2.addGoto id e.1 pr.1)

/-- The edge loop of one `VGkBuilder.build` iteration. -/
def processEdges (g : Grammar) (k : Nat) (id : Nat) (st : VSt)
    (edges : List (Sym × List LItem)) : Except PErr VSt :=
  edges.foldlM (processEdge g k id) st

/-- The worklist loop of `VGkBuilder.build`: dequeue an unprocessed frozen set
and install a goto edge (to the value returned by `_add_table`) for every
symbol with a non-empty goto. -/
def vgkLoop (g : Grammar) (k : Nat) : VSt → Nat → Except PErr VSt
  | _, 0 => .error .fuelOut
  | st, fuel + 1 =>
    match st.worklist with
    | [] => .ok st
    | id :: rest =>
      let st := { st with worklist := rest }
      match processEdges g k id st (gotoMap (st.valuesOf id)) with
      | .error e => .error e
      | .ok st => vgkLoop g k st fuel

/-- Python `VGkBuilder.build`: the provider is created (augmenting the
grammar), the start table is `{(S' -> . S, ())}`, and the loop runs to
exhaustion.  Returns the root id and the final state. -/
def buildVGk (g : Grammar) (k : Nat) (fuel : Nat) :
    Except PErr (Nat × VSt) := do
  let p ← mkFirstKProv g k
  let startRule ← onlyOf (p.g.rulesByLhsOf newStartName)
  let st0 : VSt := { nodes := [], registry := [], worklist := [], cache := p.cache }
  let (root, st) ← addTable p.g k st0 [{ rule := startRule, rulePos := 0, cont := [] }]
  let st ← vgkLoop p.g k st fuel
  .ok (root, st)

/-! ## LR(k) table compiler and driver (`_lr_parser_helpers.py`, `lr_parser.py`) -/

/-- Python tagged union `Action`. -/
inductive LAction where
  | shift
  | reduce (r : Rule)
  | accept
deriving DecidableEq, Repr

/-- Conflict and assertion outcomes of `_build_actions`. -/
inductive LRErr where
  | shiftReduce
  | reduceReduce
  | acceptAssert
  | perr (e : PErr)
deriving DecidableEq, Repr

/-- Overwrite-or-append update of an association list (Python dict update:
an existing key keeps its position, a new key goes to the end). -/
def alistSet {α β : Type} [DecidableEq α] : List (α × β) → α → β → List (α × β)
  | [], k, v => [(k, v)]
  | (k', v') :: rest, k, v =>
    if k' == k then (k', v) :: rest else (k', v') :: alistSet rest k v

/-- Registering one shift lookahead in `_build_actions` (raising
`ShiftReduceConflict` when the slot holds a non-shift action). -/
def shiftActionStep (actions : List (Tup × LAction)) (u : Tup) :
    Except LRErr (List (Tup × LAction)) :=
  match alistGet? actions u with
  | some a =>
    if a matches .shift then .ok (alistSet actions u .shift)
    else .error .shiftReduce
  | none => .ok (alistSet actions u .shift)

/-- Register all shift lookaheads of one item (the result of the `first_k`
query is paired with the threaded cache). -/
def shiftMerge (actions : List (Tup × LAction)) (pr : List Tup × FCache) :
    Except LRErr (List (Tup × LAction) × FCache) := do
  let actions ← pr.1.foldlM shiftActionStep actions
  .ok (actions, pr.2)

/-- Processing one item of `LRTablesBuilder._build_actions`: a shift item
claims every `first_k(rhs[dot:], w)` lookahead, the completed
augmented-start item with empty lookahead claims `accept` (asserting the slot
is free), and every other completed item claims `reduce` on its lookahead
(conflicting with any existing entry). -/
def buildActionStep (g : Grammar) (k : Nat)
    (acc : List (Tup × LAction) × FCache) (x : LItem) :
    Except LRErr (List (Tup × LAction) × FCache) :=
  if x.rulePos < x.rule.rlen then
    match x.nextSym with
    | none => .ok acc
    | some s =>
      if ¬ s.isTerminalS then .ok acc
      else shiftMerge acc.1 (firstKQueryC g k acc.2 (x.rule.rhs.drop x.rulePos) x.cont)
  else
    if x.rule.lhs = newStartName ∧ x.cont = [] then
      match alistGet? acc.1 x.cont with
      | some _ => .error .acceptAssert
      | none => .ok (alistSet acc.1 x.cont .accept, acc.2)
    else
      match alistGet? acc.1 x.cont with
      | some a =>
        if a matches .shift then .error .shiftReduce else .error .reduceReduce
      | none => .ok (alistSet acc.1 x.cont (.reduce x.rule), acc.2)

/-- Python `LRTablesBuilder._build_actions` on one frozen item set, iterated in
the deterministic closure order. -/
def buildActions (g : Grammar) (k : Nat) (c : FCache) (values : List LItem) :
    Except LRErr (List (Tup × LAction) × FCache) :=
  values.foldlM (buildActionStep g k) ([], c)

/-- Keys of the Python `transitions` dict: either a symbol or a raw token (the
two types are never equal in Python). -/
inductive TransKey where
  | symK (s : Sym)
  | tokK (t : Tok)
deriving DecidableEq, Repr

/-- One compiled LR state: `actions` and `transitions`, with transition
targets given by the registry-canonical item-set value (Python's `_states`
dict is keyed by `FrozenTable` value). -/
structure LRSt where
  actions : List (Tup × LAction)
  transitions : List (TransKey × List LItem)
deriving DecidableEq, Repr

/-- The canonical (registry) values that are value-equal to a node's values. -/
def VSt.canonValues (st : VSt) (id : Nat) : List LItem :=
  match st.registry.find? (fun rid => sameSet (st.valuesOf rid) (st.valuesOf id)) with
  | some rid => st.valuesOf rid
  | none => []

/-- Python `LRTablesBuilder.build` / `_process` / `_state_for`: one LR state
per registry value (the only nodes whose `gotos` are populated are the
canonical ones, and the duplicates returned by `_add_table` share their state
by value), with actions built per value and transitions copied from the
canonical node's gotos, indexed both by symbol and - for terminals - by raw
token.  The traversal visits exactly the registry values. -/
def buildLRStates (g : Grammar) (k : Nat) (st : VSt) :
    Except LRErr (List (List LItem × LRSt)) := do
  let res ← st.registry.foldlM
    (fun (acc : List (List LItem × LRSt) × FCache) id => do
      let (states, c) := acc
      let (actions, c) ← buildActions g k c (st.valuesOf id)
      let transitions := (((st.nodes.get? id).map VNode.gotos).getD []).foldl
        (fun (tr : List (TransKey × List LItem)) e =>
          let target := st.canonValues e.2
          let tr := alistSet tr (.symK e.1) target
          if e.1.isTerminalS then alistSet tr (.tokK e.1.getToken) target else tr) []
      .ok (states ++ [(st.valuesOf id, { actions := actions, transitions := transitions })], c))
    ([], st.cache)
  .ok res.1

/-- The full LR build (`LRParserConfig.__init__`). -/
def buildLRCfg (g : Grammar) (k : Nat) (fuel : Nat) :
    Except LRErr (List LItem × List (List LItem × LRSt)) := do
  match buildVGk g k fuel with
  | .error e => .error (.perr e)
  | .ok (root, st) =>
    let states ← buildLRStates g k st
    .ok (st.canonValues root, states)

/-- Lookup of a compiled state by (set-equal) item-set value. -/
def lookupState (states : List (List LItem × LRSt)) (key : List LItem) :
    Option LRSt :=
  match states.find? (fun p => sameSet p.1 key) with
  | some p => some p.2
  | none => none

/-- Python `LRParser._lookahead`: peek `k` tokens (padded with the EOF
sentinel) and strip trailing sentinels. -/
def lrLookahead (k : Nat) (eof : Tok) (rest : List Tok) : Tup :=
  (((rest ++ List.replicate k eof).take k).reverse.dropWhile (· == eof)).reverse

/-- Python `LRParser._parse`: the shift/reduce loop over the stack of LR
states (the stored symbols are never read back and are omitted).  Missing
action: reject.  Missing transition: the source's dict subscript raises
`KeyError`.  Popping through the bottom of the stack raises `IndexError`
(modelled by `keyError` vs `assertionError` distinct constructors below). -/
def lrLoop (states : List (List LItem × LRSt)) (k : Nat) (eof : Tok) :
    List (List LItem) → List Tok → Nat → Except PErr Bool
  | _, _, 0 => .error .fuelOut
  | [], _, _ + 1 => .error .assertionError
  | top :: stackRest, rest, fuel + 1 =>
    match lookupState states top with
    | none => .error .keyError
    | some st =>
      let preview := lrLookahead k eof rest
      match alistGet? st.actions preview with
      | none => .ok false
      | some .accept => .ok true
      | some .shift =>
        let ch := rest.headD eof
        let rest' := rest.tail
        match alistGet? st.transitions (.tokK ch) with
        | none => .error .keyError
        | some target => lrLoop states k eof (target :: top :: stackRest) rest' fuel
      | some (.reduce r) =>
        match (top :: stackRest).drop r.rlen with
        | [] => .error .assertionError
        | newTop :: stack' =>
          match lookupState states newTop with
          | none => .error .keyError
          | some st' =>
            match alistGet? st'.transitions (.symK (.nt r.lhs)) with
            | none => .error .keyError
            | some target => lrLoop states k eof (target :: newTop :: stack') rest fuel

/-- Python `LRParser.parse` after `feed(toks)`, given a compiled config. -/
def lrParse (cfg : List LItem × List (List LItem × LRSt)) (k : Nat) (eof : Tok)
    (toks : List Tok) (fuel : Nat) : Except PErr Bool :=
  lrLoop cfg.2 k eof [cfg.1] toks fuel

/-! ## Order-independence of the item-set closure

`UpdateableSet.process` (`utils.py`) pops an arbitrary element of the pending
set, so `VGkBuilder._complete_table` is a nondeterministic worklist loop.  The
items one processing step of `_complete_table` adds for a popped item are a
pure function of the item (given the post-`_prepare` FIRST_k cache, which the
closure queries never change); `WorkRun` is the loop with a free choice of the
pop order, and any two complete runs are proved to produce the same closed
set. -/

/-- The set of items `_complete_table` adds when processing one item: nothing
for a completed item or a terminal after the dot; otherwise one predicted item
`(B -> . gamma, u)` per rule of the nonterminal after the dot and per
lookahead `u` in `first_k(rhs[dot+1:], continuation)`. -/
def closureExpand (g : Grammar) (k : Nat) (c : FCache) (x : LItem) :
    List LItem :=
  match x.nextSym with
  | none => []
  | some s =>
    if s.isTerminalS then []
    else
      match s with
      | .nt name =>
        let conts := (firstKQueryC g k c (x.rule.rhs.drop (x.rulePos + 1)) x.cont).1
        (g.rulesByLhsOf name).foldl (fun acc r =>
          conts.foldl (fun acc u => acc ++ [{ rule := r, rulePos := 0, cont := u }]) acc) []
      | _ => []

/-- A run of the worklist closure loop: from a closed part and a pending part
to a final closed set.  `step` pops an arbitrary pending element `x`, moves it
to the closed part, and adds `f x` minus the already-closed elements to the
pending part (`UpdateableSet.add` skips closed elements; the pending set
deduplicates).  `done` fires when nothing is pending (`has_new()` is false). -/
inductive WorkRun {α : Type} [DecidableEq α] (f : α → Finset α) :
    Finset α → Finset α → Finset α → Prop where
  | done (closed : Finset α) : WorkRun f closed ∅ closed
  | step (closed pending res : Finset α) (x : α) (hx : x ∈ pending)
      (h : WorkRun f (insert x closed)
        (pending.erase x ∪ (f x \ insert x closed)) res) :
      WorkRun f closed pending res

/-! ## Invariants and views used by the verification -/

/-- A grammar that does not mention the reserved augmented-start name. -/
def NoNewStart (g : Grammar) : Prop :=
  newStartName ∉ g.nts ∧ ∀ r ∈ g.rules, r.lhs ≠ newStartName

/-- All tokens of the grammar's terminals (the terminal alphabet, with
multiplicity; its `toFinset` is `T`). -/
def allTokensList (g : Grammar) : List Tok :=
  g.rules.flatMap (fun r => (r.rhs.filter Sym.isTerminalS).map Sym.getToken)

/-- A tuple of length at most `k` over the grammar's terminal alphabet. -/
def GoodTup (g : Grammar) (k : Nat) (l : Tup) : Prop :=
  l.length ≤ k ∧ ∀ t ∈ l, t ∈ allTokensList g

/-- All members of a tuple set are good. -/
def GoodSet (g : Grammar) (k : Nat) (s : List Tup) : Prop :=
  ∀ l ∈ s, GoodTup g k l

/-- All cache entries are good sets. -/
def GoodCache (g : Grammar) (k : Nat) (c : FCache) : Prop :=
  ∀ p ∈ c, GoodSet g k p.2

/-- A symbol whose token (if it is a terminal) belongs to the grammar's
alphabet; the engine is only ever applied to such symbols. -/
def SymOK (g : Grammar) (s : Sym) : Prop :=
  s.isTerminalS = true → s.getToken ∈ allTokensList g

/-- The precondition on each kind of expansion argument. -/
def ArgOK (g : Grammar) : ExpandArg → Prop
  | .symE s _ => SymOK g s
  | .doE s => SymOK g s
  | .seqE syms => ∀ s ∈ syms, SymOK g s

/-- The finite set of token tuples of length at most `k` over an alphabet. -/
def tuplesUpTo (T : Finset Tok) : Nat → Finset (List Tok)
  | 0 => {[]}
  | k + 1 => insert [] (Finset.image₂ List.cons T (tuplesUpTo T k))

/-- The invariant carried by the `_expand_sequence` fold: the emitted results
are good, the running products use only alphabet tokens, and the cache is
good. -/
abbrev SeqInv (g : Grammar) (k : Nat) (acc : List Tup × List Tup × FCache) : Prop :=
  GoodSet g k acc.1 ∧ (∀ l ∈ acc.2.1, ∀ t ∈ l, t ∈ allTokensList g) ∧
    GoodCache g k acc.2.2

/-- The goto edges of a node id. -/
def gotosOf (st : VSt) (id : Nat) : List (Sym × Nat) :=
  ((st.nodes.get? id).map VNode.gotos).getD []

/-- The invariant of the `VGkBuilder.build` worklist loop: ids are registered
and in range, unprocessed registry nodes have no gotos yet, and every
processed registry node carries one goto edge per non-empty-goto symbol, each
edge targeting a node that is value-equal to some registered node. -/
def VInv (st : VSt) : Prop :=
  st.registry.Nodup ∧ st.worklist.Nodup ∧
  (∀ id ∈ st.worklist, id ∈ st.registry) ∧
  (∀ id ∈ st.registry, id < st.nodes.length) ∧
  (∀ id ∈ st.registry, id ∈ st.worklist → gotosOf st id = []) ∧
  (∀ id ∈ st.registry, id ∉ st.worklist →
    (gotosOf st id).map Prod.fst = (gotoMap (st.valuesOf id)).map Prod.fst ∧
    ∀ e ∈ gotosOf st id, e.2 < st.nodes.length ∧
      ∃ rid ∈ st.registry, sameSet (st.valuesOf rid) (st.valuesOf e.2) = true)



/-! ## Concrete grammars and runs from the test suite -/

/-- The `brackets` grammar of `parser_test_base.py` (start is `start`). -/
def bracketsG : Grammar := mkGrammar "start"
  [ { lhs := "start", rhs := [.tm "(", .nt "start", .tm ")"] }
  , { lhs := "start", rhs := [.nt "start", .nt "start"] }
  , { lhs := "start", rhs := [.tm ""] } ]

/-- The `equal_ab` grammar of `parser_test_base.py`. -/
def equalABG : Grammar := mkGrammar "start"
  [ { lhs := "start", rhs := [.tm "a", .nt "start", .tm "b", .nt "start"] }
  , { lhs := "start", rhs := [.tm "b", .nt "start", .tm "a", .nt "start"] }
  , { lhs := "start", rhs := [.tm ""] } ]

/-- What `metaparse_bnf_grammar` returns: the parsed grammar with
`split_long_terminals` applied (`bnf_metaparser.py` does this before
returning). -/
def metaparsed (g : Grammar) : Grammar :=
  match g.splitLongTerminals with
  | .ok pr => pr.2
  | .error _ => g

/-- Build the Earley recognizer and run it with the evidently intended
dispatch (`is_terminal`) on a character string. -/
def earleyIntended (g : Grammar) (s : String) : Except PErr Bool := do
  let cfg ← earleyConfig g
  earleyParse cfg false (charToks s)

/-- Build the Earley recognizer and run it exactly as the source is written
(`next_item.isTerminal()`). -/
def earleyFaithful (g : Grammar) (toks : List Tok) : Except PErr Bool := do
  let cfg ← earleyConfig g
  earleyParse cfg true toks

/-- The LR(2) seminar grammar of `lr_test.py`, before terminal splitting. -/
def g3raw : Grammar := mkGrammar "S"
  [ { lhs := "S", rhs := [.nt "A", .nt "B"] }
  , { lhs := "A", rhs := [.tm "a"] }
  , { lhs := "B", rhs := [.nt "C", .nt "D"] }
  , { lhs := "B", rhs := [.tm "a", .nt "E"] }
  , { lhs := "C", rhs := [.tm "ab"] }
  , { lhs := "D", rhs := [.tm "bb"] }
  , { lhs := "E", rhs := [.tm "bba"] } ]

/-- The LR(2) seminar grammar as the metaparser delivers it. -/
def g3 : Grammar := metaparsed g3raw

/-- The EOF sentinel the LR tests pass (`LRParserAPI(grammar, "", k)`). -/
def eofTok : Tok := ""

/-- Fuel for the canonical-collection worklist loop. -/
def vgkFuel : Nat := 300

/-- Fuel for the LR driver loop. -/
def parseFuel : Nat := 300

/-- The four LR(2) driver runs of the seminar-grammar test, sharing one table
build. -/
def c3check : Bool :=
  match buildLRCfg g3 2 vgkFuel with
  | .error _ => false
  | .ok cfg =>
    (lrParse cfg 2 eofTok (charToks "aabbb") parseFuel == .ok true) &&
    (lrParse cfg 2 eofTok (charToks "aabba") parseFuel == .ok true) &&
    (lrParse cfg 2 eofTok (charToks "babba") parseFuel == .ok false) &&
    (lrParse cfg 2 eofTok (charToks "a") parseFuel == .ok false)

/-- The FIRST_k probe grammar `S -> S "a" S "b" | ""` of `lr_test.py`. -/
def g4raw : Grammar := mkGrammar "start"
  [ { lhs := "start", rhs := [.nt "start", .tm "a", .nt "start", .tm "b"] }
  , { lhs := "start", rhs := [.tm ""] } ]

/-- The probe grammar as the metaparser delivers it. -/
def g4 : Grammar := metaparsed g4raw

/-- A `first_k` probe through a freshly built provider (`None` when the
provider construction fails). -/
def firstKProbe (g : Grammar) (k : Nat) (syms : List Sym) (cont : Tup) :
    Option (List Tup) :=
  (mkFirstKProv g k).toOption.map (fun p => (firstKQuery p syms cont).1)

/-- The two-rule grammar `S -> "a" | ""` refuting the `|T|^k` cardinality
bound. -/
def g5raw : Grammar := mkGrammar "S"
  [ { lhs := "S", rhs := [.tm "a"] }
  , { lhs := "S", rhs := [.tm ""] } ]

/-- The bound counterexample grammar as the metaparser delivers it. -/
def g5 : Grammar := metaparsed g5raw

/-- The cached per-symbol set `first_k[A]` after provider construction. -/
def firstSetOf (g : Grammar) (k : Nat) (n : String) : List Tup :=
  match mkFirstKProv g k with
  | .ok p => cacheGet p.cache (.nt n)
  | .error _ => []

/-- The FIRST_1 provider of the bound counterexample grammar. -/
def p5 : FirstKProv :=
  match mkFirstKProv g5 1 with
  | .ok p => p
  | .error _ => { g := g5, k := 1, cache := [] }

/-- The right-recursive grammar `S -> "a" S | ""` whose canonical collection
re-discovers an item set. -/
def g7raw : Grammar := mkGrammar "S"
  [ { lhs := "S", rhs := [.tm "a", .nt "S"] }
  , { lhs := "S", rhs := [.tm ""] } ]

/-- The re-discovery grammar as the metaparser delivers it. -/
def g7 : Grammar := metaparsed g7raw

/-- The canonical collection `V_G^1` of `g7` (root id and final state). -/
def v7 : Nat × VSt :=
  match buildVGk g7 1 vgkFuel with
  | .ok pr => pr
  | .error _ => (0, { nodes := [], registry := [], worklist := [], cache := [] })

/-- The one-rule grammar `S -> ""` used for concrete closure runs. -/
def g8 : Grammar := mkGrammar "S" [ { lhs := "S", rhs := [] } ]

/-- A completed LR item of `g8`. -/
def i8a : LItem := { rule := { lhs := "S", rhs := [] }, rulePos := 0, cont := [] }

/-- A second completed LR item of `g8` (different lookahead). -/
def i8b : LItem := { rule := { lhs := "S", rhs := [] }, rulePos := 0, cont := ["a"] }

/-- A grammar with a long terminal, used to exhibit the receiver mutation of
`split_long_terminals`. -/
def g9 : Grammar := mkGrammar "S" [ { lhs := "S", rhs := [.tm "ab"] } ]

/-- The pair `split_long_terminals` returns on `g9`: the mutated receiver and
the new grammar. -/
def p9 : Grammar × Grammar :=
  match g9.splitLongTerminals with
  | .ok pr => pr
  | .error _ => (g9, g9)

/-- Whether a symbol is a custom (non-`StrTerminal`) terminal. -/
def Sym.isCustom : Sym → Bool
  | .custom _ _ => true
  | _ => false

/-- No rule of the grammar carries a custom terminal. -/
def NoCustom (g : Grammar) : Prop :=
  ∀ r ∈ g.rules, ∀ s ∈ r.rhs, s.isCustom = false

/-- A grammar with a custom terminal in a rule. -/
def g10 : Grammar := mkGrammar "S" [ { lhs := "S", rhs := [.custom 0 "x", .tm "a"] } ]

/-- The pair `split_long_terminals` returns on `g10`. -/
def p10 : Grammar × Grammar :=
  match g10.splitLongTerminals with
  | .ok pr => pr
  | .error _ => (g10, g10)

set_option maxRecDepth 200000

set_option maxHeartbeats 10000000

theorem workRun_subset {α : Type} [DecidableEq α] {f : α → Finset α}
    {c p r : Finset α} (h : WorkRun f c p r) : c ∪ p ⊆ r := by
  induction h with
  | done closed => simp
  | step closed pending res x hx h ih =>
    intro y hy
    apply ih
    rcases Finset.mem_union.1 hy with h1 | h2
    · exact Finset.mem_union_left _ (Finset.mem_insert_of_mem h1)
    · by_cases hyx : y = x
      · exact Finset.mem_union_left _ (by simp [hyx])
      · exact Finset.mem_union_right _
          (Finset.mem_union_left _ (Finset.mem_erase.2 ⟨hyx, h2⟩))

theorem workRun_minimal {α : Type} [DecidableEq α] {f : α → Finset α}
    {c p r : Finset α} (h : WorkRun f c p r) :
    ∀ C : Finset α, c ∪ p ⊆ C → (∀ y ∈ C, f y ⊆ C) → r ⊆ C := by
  induction h with
  | done closed =>
    intro C hsub _
    exact fun y hy => hsub (Finset.mem_union_left _ hy)
  | step closed pending res x hx h ih =>
    intro C hsub hcl
    apply ih C ?_ hcl
    intro y hy
    rcases Finset.mem_union.1 hy with h1 | h2
    · rcases Finset.mem_insert.1 h1 with rfl | hc
      · exact hsub (Finset.mem_union_right _ hx)
      · exact hsub (Finset.mem_union_left _ hc)
    · rcases Finset.mem_union.1 h2 with he | hf
      · exact hsub (Finset.mem_union_right _ (Finset.mem_of_mem_erase he))
      · exact hcl x (hsub (Finset.mem_union_right _ hx)) (Finset.mem_sdiff.1 hf).1

theorem workRun_closed {α : Type} [DecidableEq α] {f : α → Finset α}
    {c p r : Finset α} (h : WorkRun f c p r) :
    (∀ y ∈ c, f y ⊆ c ∪ p) → ∀ y ∈ r, f y ⊆ r := by
  induction h with
  | done closed =>
    intro hc y hy
    simpa using hc y hy
  | step closed pending res x hx h ih =>
    intro hc
    apply ih
    intro y hy z hz
    rcases Finset.mem_insert.1 hy with rfl | hyc
    · by_cases hzc : z ∈ insert y closed
      · exact Finset.mem_union_left _ hzc
      · exact Finset.mem_union_right _
          (Finset.mem_union_right _ (Finset.mem_sdiff.2 ⟨hz, hzc⟩))
    · have := hc y hyc hz
      rcases Finset.mem_union.1 this with h1 | h2
      · exact Finset.mem_union_left _ (Finset.mem_insert_of_mem h1)
      · by_cases hzx : z = x
        · exact Finset.mem_union_left _ (by simp [hzx])
        · exact Finset.mem_union_right _
            (Finset.mem_union_left _ (Finset.mem_erase.2 ⟨hzx, h2⟩))

theorem workRun_unique {α : Type} [DecidableEq α] {f : α → Finset α}
    {I r1 r2 : Finset α} (h1 : WorkRun f ∅ I r1) (h2 : WorkRun f ∅ I r2) :
    r1 = r2 := by
  have hsub : ∀ {ra rb : Finset α}, WorkRun f ∅ I ra → WorkRun f ∅ I rb →
      ra ⊆ rb := by
    intro ra rb ha hb
    apply workRun_minimal ha rb
    · exact workRun_subset hb
    · exact workRun_closed hb (by simp)
  exact Finset.Subset.antisymm (hsub h1 h2) (hsub h2 h1)

/-! ## The shape of the Earley configuration

`earleyConfig` always produces the augmented start rule `S' -> S`: the split
grammar never mentions the reserved name, so the re-augmentation adds exactly
one rule with the reserved lhs. -/

theorem exceptBind_ok {ε α β : Type} (a : α) (f : α → Except ε β) :
    (Except.ok a >>= f) = f a := rfl

theorem exceptBind_error {ε α β : Type} (e : ε) (f : α → Except ε β) :
    ((Except.error e : Except ε α) >>= f) = .error e := rfl

theorem ensureNt_rules (g : Grammar) (n : String) :
    (g.ensureNt n).rules = g.rules := by
  unfold Grammar.ensureNt; split <;> rfl

theorem ensureNt_start (g : Grammar) (n : String) :
    (g.ensureNt n).start = g.start := by
  unfold Grammar.ensureNt; split <;> rfl

theorem ensureNt_nts_mem {g : Grammar} {n m : String}
    (h : m ∈ (g.ensureNt n).nts) : m ∈ g.nts ∨ m = n := by
  unfold Grammar.ensureNt at h
  split at h
  · exact .inl h
  · rcases List.mem_append.1 h with h1 | h2
    · exact .inl h1
    · exact .inr (List.mem_singleton.1 h2)

theorem foldl_ensure_rules (l : List Sym) : ∀ g : Grammar,
    (l.foldl (fun g s => match s with | .nt n => g.ensureNt n | _ => g) g).rules
      = g.rules := by
  induction l with
  | nil => intro g; rfl
  | cons s rest ih =>
    intro g
    cases s with
    | nt n => simpa [ensureNt_rules] using ih (g.ensureNt n)
    | tm v => simpa using ih g
    | custom t tk => simpa using ih g

theorem foldl_ensure_nts_mem (l : List Sym) : ∀ (g : Grammar) (m : String),
    m ∈ (l.foldl (fun g s => match s with | .nt n => g.ensureNt n | _ => g) g).nts
      → m ∈ g.nts ∨ Sym.nt m ∈ l := by
  induction l with
  | nil => intro g m h; exact .inl h
  | cons s rest ih =>
    intro g m h
    cases s with
    | nt n =>
      rcases ih (g.ensureNt n) m (by simpa using h) with h1 | h2
      · rcases ensureNt_nts_mem h1 with h3 | rfl
        · exact .inl h3
        · exact .inr (by simp)
      · exact .inr (List.mem_cons_of_mem _ h2)
    | tm v =>
      rcases ih g m (by simpa using h) with h1 | h2
      · exact .inl h1
      · exact .inr (List.mem_cons_of_mem _ h2)
    | custom t tk =>
      rcases ih g m (by simpa using h) with h1 | h2
      · exact .inl h1
      · exact .inr (List.mem_cons_of_mem _ h2)

theorem insertRule_rules (g : Grammar) (r : Rule) :
    (g.insertRule r).rules = g.rules ∨ (g.insertRule r).rules = g.rules ++ [r] := by
  unfold Grammar.insertRule
  split
  · exact .inl rfl
  · exact .inr rfl

theorem insertRule_nts (g : Grammar) (r : Rule) :
    (g.insertRule r).nts = g.nts := by
  unfold Grammar.insertRule
  split <;> rfl

theorem addRule_rules (g : Grammar) (r : Rule) :
    (g.addRule r).rules = g.rules ∨ (g.addRule r).rules = g.rules ++ [r] := by
  unfold Grammar.addRule
  rcases insertRule_rules (r.rhs.foldl (fun g s => match s with
      | .nt n => g.ensureNt n | _ => g) (g.ensureNt r.lhs)) r with h | h <;>
    rw [h, foldl_ensure_rules, ensureNt_rules]
  · exact .inl rfl
  · exact .inr rfl

theorem addRule_nts_mem {g : Grammar} {r : Rule} {m : String}
    (h : m ∈ (g.addRule r).nts) :
    m ∈ g.nts ∨ m = r.lhs ∨ Sym.nt m ∈ r.rhs := by
  unfold Grammar.addRule at h
  rw [insertRule_nts] at h
  rcases foldl_ensure_nts_mem r.rhs (g.ensureNt r.lhs) m h with h1 | h2
  · rcases ensureNt_nts_mem h1 with h3 | rfl
    · exact .inl h3
    · exact .inr (.inl rfl)
  · exact .inr (.inr h2)

theorem addRule_noNewStart {g : Grammar} {r : Rule} (hg : NoNewStart g)
    (h1 : r.lhs ≠ newStartName) (h2 : Sym.nt newStartName ∉ r.rhs) :
    NoNewStart (g.addRule r) := by
  constructor
  · intro hmem
    rcases addRule_nts_mem hmem with h3 | h3 | h3
    · exact hg.1 h3
    · exact h1 h3.symm
    · exact h2 h3
  · intro r' hr'
    rcases addRule_rules g r with he | he <;> rw [he] at hr'
    · exact hg.2 r' hr'
    · rcases List.mem_append.1 hr' with h3 | h3
      · exact hg.2 r' h3
      · rw [List.mem_singleton.1 h3]; exact h1

theorem splitSym_no_newstart {s : Sym} {l : List Sym}
    (h : splitSym s = .ok l) : Sym.nt newStartName ∉ l := by
  cases s with
  | nt n =>
    by_cases hn : n = newStartName
    · simp [splitSym, hn] at h
    · simp only [splitSym, if_neg hn] at h
      cases h
      intro hmem
      have h2 := List.mem_singleton.1 hmem
      injection h2 with h3
      exact hn h3.symm
  | tm v =>
    simp only [splitSym] at h
    cases h
    intro hmem
    rcases List.mem_map.1 hmem with ⟨c, _, hc⟩
    cases hc
  | custom t tk =>
    simp only [splitSym] at h
    cases h
    simp

theorem splitRhs_no_newstart {rhs : List Sym} : ∀ {l : List Sym},
    splitRhs rhs = .ok l → Sym.nt newStartName ∉ l := by
  induction rhs with
  | nil => intro l h; cases h; simp
  | cons s rest ih =>
    intro l h
    unfold splitRhs at h
    cases hs : splitSym s with
    | error e => rw [hs] at h; cases h
    | ok hd =>
      cases hr : splitRhs rest with
      | error e => rw [hs, hr] at h; cases h
      | ok tl =>
        rw [hs, hr] at h
        cases h
        intro hmem
        rcases List.mem_append.1 hmem with h1 | h1
        · exact splitSym_no_newstart hs h1
        · exact ih hr h1

theorem splitFold_noNewStart (rules : List Rule) :
    ∀ {acc g2 : Grammar}, NoNewStart acc →
    rules.foldlM (fun (acc : Grammar) r =>
      if r.lhs = newStartName then Except.ok acc
      else do
        let rhs ← splitRhs r.rhs
        Except.ok (acc.addRule { lhs := r.lhs, rhs := rhs })) acc = .ok g2 →
    NoNewStart g2 := by
  induction rules with
  | nil => intro acc g2 hacc h; cases h; exact hacc
  | cons r rest ih =>
    intro acc g2 hacc h
    rw [List.foldlM_cons] at h
    by_cases hlhs : r.lhs = newStartName
    · rw [if_pos hlhs] at h
      exact ih hacc h
    · rw [if_neg hlhs] at h
      cases hs : splitRhs r.rhs with
      | error e =>
        rw [hs] at h
        cases h
      | ok rhs =>
        rw [hs] at h
        refine ih ?_ h
        exact addRule_noNewStart hacc hlhs (splitRhs_no_newstart hs)

theorem split_noNewStart {g g1 g2 : Grammar}
    (h : g.splitLongTerminals = .ok (g1, g2)) : NoNewStart g2 := by
  unfold Grammar.splitLongTerminals at h
  split at h
  · cases ht : g.triggerNewStart with
    | error e => rw [ht] at h; cases h
    | ok g' =>
      rw [ht, exceptBind_ok] at h
      cases hf : List.foldlM (fun (acc : Grammar) r =>
          if r.lhs = newStartName then Except.ok acc
          else do
            let rhs ← splitRhs r.rhs
            Except.ok (acc.addRule { lhs := r.lhs, rhs := rhs }))
          { rules := [], nts := [], start := g'.start } g'.rules with
      | error e => rw [hf, exceptBind_error] at h; cases h
      | ok gn =>
        rw [hf, exceptBind_ok] at h
        cases h
        exact splitFold_noNewStart g1.rules (by constructor <;> simp) hf
  · cases h

theorem addRule_rules_of_not_mem {g : Grammar} {r : Rule} (h : r ∉ g.rules) :
    (g.addRule r).rules = g.rules ++ [r] := by
  unfold Grammar.addRule Grammar.insertRule
  rw [foldl_ensure_rules, ensureNt_rules, if_neg h]

theorem trigger_of_noNewStart {g : Grammar} (hg : newStartName ∉ g.nts)
    (hs : g.start ∈ g.nts) :
    g.triggerNewStart = .ok (g.addRule { lhs := newStartName, rhs := [.nt g.start] }) := by
  unfold Grammar.triggerNewStart
  rw [if_neg hg, if_pos hs]

theorem earleyConfig_startRule {g : Grammar} {cfg : EConfig}
    (h : earleyConfig g = .ok cfg) :
    ∃ n, cfg.startRule = { lhs := newStartName, rhs := [Sym.nt n] } := by
  unfold earleyConfig at h
  cases hs : g.splitLongTerminals with
  | error e => rw [hs] at h; cases h
  | ok p =>
    obtain ⟨g1, g2⟩ := p
    have hg2 := split_noNewStart hs
    rw [hs, exceptBind_ok] at h
    simp only [] at h
    by_cases hst : g2.start ∈ g2.nts
    · rw [if_pos hst] at h
      rw [trigger_of_noNewStart hg2.1 hst, exceptBind_ok] at h
      have hnotmem : ({ lhs := newStartName, rhs := [Sym.nt g2.start] } : Rule)
          ∉ g2.rules := by
        intro hmem
        exact hg2.2 _ hmem rfl
      have hrules := addRule_rules_of_not_mem hnotmem
      have hfilter : (g2.addRule { lhs := newStartName, rhs := [Sym.nt g2.start] }).rulesByLhsOf
          newStartName = [{ lhs := newStartName, rhs := [Sym.nt g2.start] }] := by
        unfold Grammar.rulesByLhsOf
        rw [hrules, List.filter_append]
        have h1 : g2.rules.filter (fun r => r.lhs == newStartName) = [] := by
          rw [List.filter_eq_nil_iff]
          intro r hr
          simpa using hg2.2 r hr
        rw [h1]
        simp
      rw [hfilter] at h
      have honly : onlyOf [({ lhs := newStartName, rhs := [Sym.nt g2.start] } : Rule)]
          = .ok { lhs := newStartName, rhs := [Sym.nt g2.start] } := rfl
      rw [honly, exceptBind_ok] at h
      cases h
      exact ⟨g2.start, rfl⟩
    · rw [if_neg hst] at h
      cases h

/-- The faithful Earley step crashes as soon as it processes an item whose
next symbol exists; in particular a parse whose initial item is the augmented
start rule `S' -> S` crashes on every input. -/
theorem earleyParse_faithful_error (cfg : EConfig) (n : String)
    (h : cfg.startRule = { lhs := newStartName, rhs := [Sym.nt n] })
    (toks : List Tok) : earleyParse cfg true toks = .error .attributeError := by
  obtain ⟨sr, rbl⟩ := cfg
  simp only [] at h
  subst h
  cases toks with
  | nil => rfl
  | cons t ts => rfl

/-! ## Bounds on the FIRST_k sets

The spec's terminal alphabet `T` of a grammar, and the invariant satisfied by
every set the FIRST_k engine ever stores: tuples of length at most `k` over
`T`. -/

theorem foldl_inv {α β : Type} (P : β → Prop) (op : β → α → β) :
    ∀ (l : List α) (b : β), P b → (∀ b a, P b → a ∈ l → P (op b a)) →
    P (l.foldl op b) := by
  intro l
  induction l with
  | nil => intro b hb _; exact hb
  | cons a rest ih =>
    intro b hb hstep
    exact ih _ (hstep b a hb (by simp))
      (fun b' a' hb' ha' => hstep b' a' hb' (List.mem_cons_of_mem _ ha'))

theorem insAbsent_mem {α : Type} [DecidableEq α] {l : List α} {a x : α}
    (h : x ∈ insAbsent l a) : x ∈ l ∨ x = a := by
  unfold insAbsent at h
  split at h
  · exact .inl h
  · rcases List.mem_append.1 h with h1 | h1
    · exact .inl h1
    · exact .inr (List.mem_singleton.1 h1)

theorem setUnion_mem {α : Type} [DecidableEq α] {adds l : List α} {x : α} :
    x ∈ setUnion l adds → x ∈ l ∨ x ∈ adds := by
  unfold setUnion
  induction adds generalizing l with
  | nil => intro h; exact .inl h
  | cons a rest ih =>
    intro h
    rcases ih h with h1 | h1
    · rcases insAbsent_mem h1 with h2 | rfl
      · exact .inl h2
      · exact .inr (by simp)
    · exact .inr (List.mem_cons_of_mem _ h1)

theorem minkovskyInner_mem (x : Tup) (b : List Tup) : ∀ (acc0 : List Tup)
    (l : Tup), l ∈ b.foldl (fun acc y => insAbsent acc (x ++ y)) acc0 →
    l ∈ acc0 ∨ ∃ y ∈ b, l = x ++ y := by
  induction b with
  | nil => intro acc0 l h; exact .inl h
  | cons y rest ih =>
    intro acc0 l h
    rcases ih (insAbsent acc0 (x ++ y)) l h with h1 | h1
    · rcases insAbsent_mem h1 with h2 | rfl
      · exact .inl h2
      · exact .inr ⟨y, by simp, rfl⟩
    · rcases h1 with ⟨y', hy', he⟩
      exact .inr ⟨y', List.mem_cons_of_mem _ hy', he⟩

theorem minkovskyOuter_mem (b : List Tup) (aa : List Tup) : ∀ (acc0 : List Tup)
    (l : Tup), l ∈ aa.foldl
      (fun acc x => b.foldl (fun acc y => insAbsent acc (x ++ y)) acc) acc0 →
    l ∈ acc0 ∨ ∃ x ∈ aa, ∃ y ∈ b, l = x ++ y := by
  induction aa with
  | nil => intro acc0 l h; exact .inl h
  | cons x rest ih =>
    intro acc0 l h
    rcases ih _ l h with h1 | h1
    · rcases minkovskyInner_mem x b acc0 l h1 with h2 | h2
      · exact .inl h2
      · rcases h2 with ⟨y, hy, he⟩
        exact .inr ⟨x, by simp, y, hy, he⟩
    · rcases h1 with ⟨x', hx', hrest⟩
      exact .inr ⟨x', List.mem_cons_of_mem _ hx', hrest⟩

theorem minkovskySum_mem {a b : List Tup} {l : Tup}
    (h : l ∈ minkovskySum a b) : ∃ x ∈ a, ∃ y ∈ b, l = x ++ y := by
  unfold minkovskySum at h
  rcases minkovskyOuter_mem b a [] l h with h1 | h1
  · cases h1
  · exact h1

theorem goodSet_setUnion {g : Grammar} {k : Nat} {l adds : List Tup}
    (hl : GoodSet g k l) (ha : GoodSet g k adds) : GoodSet g k (setUnion l adds) := by
  intro x hx
  rcases setUnion_mem hx with h | h
  · exact hl x h
  · exact ha x h

theorem goodSet_cacheGet {g : Grammar} {k : Nat} {c : FCache} {s : Sym}
    (hc : GoodCache g k c) : GoodSet g k (cacheGet c s) := by
  unfold cacheGet
  cases hf : c.find? (fun p => p.1 == s) with
  | none => intro x hx; cases hx
  | some p => exact hc p (List.mem_of_find?_eq_some hf)

theorem goodCache_setDefault {g : Grammar} {k : Nat} {c : FCache} {s : Sym}
    (hc : GoodCache g k c) : GoodCache g k (cacheSetDefault c s) := by
  unfold cacheSetDefault
  split
  · exact hc
  · intro p hp
    rcases List.mem_append.1 hp with h1 | h1
    · exact hc p h1
    · rw [List.mem_singleton.1 h1]
      intro x hx
      cases hx

theorem goodCache_update {g : Grammar} {k : Nat} {c : FCache} {s : Sym}
    {adds : List Tup} (hc : GoodCache g k c) (ha : GoodSet g k adds) :
    GoodCache g k (cacheUpdate c s adds) := by
  intro p hp
  rcases List.mem_map.1 hp with ⟨q, hq, he⟩
  by_cases hqs : q.1 == s
  · rw [if_pos hqs] at he
    rw [← he]
    exact goodSet_setUnion (hc q hq) ha
  · rw [if_neg hqs] at he
    rw [← he]
    exact hc q hq

theorem symERound_good {g : Grammar} {k : Nat} {expDo : FCache → List Tup × FCache}
    (hexp : ∀ c, GoodCache g k c →
      GoodSet g k (expDo c).1 ∧ GoodCache g k (expDo c).2)
    (s : Sym) {c : FCache} (hc : GoodCache g k c) :
    GoodCache g k (symERound expDo s c) := by
  unfold symERound symEMerge
  exact goodCache_update (hexp c hc).2 (hexp c hc).1

theorem doEStep_good {g : Grammar} {k : Nat}
    {expSeq : FCache → List Sym → List Tup × FCache} {r : Rule}
    (hexp : ∀ c, GoodCache g k c →
      GoodSet g k (expSeq c r.rhs).1 ∧ GoodCache g k (expSeq c r.rhs).2)
    {acc : List Tup × FCache} (hacc : GoodSet g k acc.1 ∧ GoodCache g k acc.2) :
    GoodSet g k (doEStep expSeq acc r).1 ∧ GoodCache g k (doEStep expSeq acc r).2 := by
  unfold doEStep doEMerge
  exact ⟨goodSet_setUnion hacc.1 (hexp acc.2 hacc.2).1, (hexp acc.2 hacc.2).2⟩

theorem goodTup_take {g : Grammar} {k : Nat} {l : Tup}
    (h : ∀ t ∈ l, t ∈ allTokensList g) : GoodTup g k (l.take k) := by
  constructor
  · rw [List.length_take]
    exact min_le_left _ _
  · intro t ht
    exact h t (List.take_subset _ _ ht)

theorem seqEStep_good {g : Grammar} {k : Nat}
    {exp : FCache → Sym → List Tup × FCache} {s : Sym}
    (hexp : ∀ c, GoodCache g k c →
      GoodSet g k (exp c s).1 ∧ GoodCache g k (exp c s).2)
    {acc : List Tup × List Tup × FCache} (hacc : SeqInv g k acc) :
    SeqInv g k (seqEStep exp k acc s) := by
  obtain ⟨hres, hcur, hc⟩ := hacc
  have hes := hexp acc.2.2 hc
  unfold seqEStep seqEMerge seqESplit
  have hmink : ∀ l ∈ minkovskySum acc.2.1 (exp acc.2.2 s).1,
      ∀ t ∈ l, t ∈ allTokensList g := by
    intro l hl t ht
    rcases minkovskySum_mem hl with ⟨x, hx, y, hy, rfl⟩
    rcases List.mem_append.1 ht with h1 | h1
    · exact hcur x hx t h1
    · exact (hes.1 y hy).2 t h1
  refine ⟨?_, ?_, hes.2⟩
  · intro l hl
    rcases setUnion_mem hl with h1 | h1
    · exact hres l h1
    · rcases List.mem_map.1 h1 with ⟨l', hl', rfl⟩
      exact goodTup_take (hmink l' (List.mem_filter.1 hl').1)
  · intro l hl
    exact hmink l (List.mem_filter.1 hl).1

theorem seqEFinish_good {g : Grammar} {k : Nat}
    {step : List Tup × List Tup × FCache} (h : SeqInv g k step) :
    GoodSet g k (seqEFinish k step).1 ∧ GoodCache g k (seqEFinish k step).2 := by
  obtain ⟨hres, hcur, hc⟩ := h
  unfold seqEFinish
  refine ⟨?_, hc⟩
  intro l hl
  rcases setUnion_mem hl with h1 | h1
  · exact hres l h1
  · rcases List.mem_map.1 h1 with ⟨l', hl', rfl⟩
    exact goodTup_take (hcur l' hl')

theorem expandFuel_good (g : Grammar) (k : Nat) (hk : 1 ≤ k) :
    ∀ (fuel : Nat) (arg : ExpandArg) (c : FCache), GoodCache g k c →
    ArgOK g arg →
    GoodSet g k (expandFuel g k fuel arg c).1 ∧
      GoodCache g k (expandFuel g k fuel arg c).2 := by
  intro fuel
  induction fuel with
  | zero =>
    intro arg c hc _
    exact ⟨(by intro l hl; cases hl), hc⟩
  | succ fuel ih =>
    intro arg c hc harg
    cases arg with
    | symE s explicit =>
      simp only [expandFuel]
      split
      · exact ⟨goodSet_cacheGet hc, hc⟩
      · have hfold : GoodCache g k ((List.range (sufficientReps g k)).foldl
            (fun c _ => symERound (expandFuel g k fuel (.doE s)) s c)
            (cacheSetDefault c s)) := by
          apply foldl_inv (GoodCache g k) _ _ _ (goodCache_setDefault hc)
          intro c' _ hc' _
          exact symERound_good (fun c0 hc0 => ih (.doE s) c0 hc0 harg) s hc'
        exact ⟨goodSet_cacheGet hfold, hfold⟩
    | doE s =>
      cases s with
      | tm v =>
        refine ⟨?_, hc⟩
        intro l hl
        rw [List.mem_singleton.1 hl]
        refine ⟨by simpa using hk, ?_⟩
        intro t ht
        rw [List.mem_singleton.1 ht]
        exact harg rfl
      | custom tg tk =>
        refine ⟨?_, hc⟩
        intro l hl
        rw [List.mem_singleton.1 hl]
        refine ⟨by simpa using hk, ?_⟩
        intro t ht
        rw [List.mem_singleton.1 ht]
        exact harg rfl
      | nt n =>
        have hfold : GoodSet g k ((g.rulesByLhsOf n).foldl
            (doEStep (fun c rhs => expandFuel g k fuel (.seqE rhs) c)) ([], c)).1 ∧
            GoodCache g k ((g.rulesByLhsOf n).foldl
            (doEStep (fun c rhs => expandFuel g k fuel (.seqE rhs) c)) ([], c)).2 := by
          apply foldl_inv
            (fun acc : List Tup × FCache =>
              GoodSet g k acc.1 ∧ GoodCache g k acc.2) _ _ _
            ⟨(by intro l hl; cases hl), hc⟩
          intro acc r hacc hr
          apply doEStep_good _ hacc
          intro c0 hc0
          apply ih (.seqE r.rhs) c0 hc0
          intro s' hs' hterm
          have hrg : r ∈ g.rules := (List.mem_filter.1 hr).1
          unfold allTokensList
          rw [List.mem_flatMap]
          exact ⟨r, hrg, List.mem_map.2 ⟨s', List.mem_filter.2 ⟨hs', hterm⟩, rfl⟩⟩
        exact hfold
    | seqE syms =>
      simp only [expandFuel]
      apply seqEFinish_good
      apply foldl_inv (SeqInv g k) _ _ _
        ⟨(by intro l hl; cases hl),
          (by intro l hl t ht; rw [List.mem_singleton.1 hl] at ht; cases ht), hc⟩
      intro acc s' hacc hs'
      apply seqEStep_good _ hacc
      intro c0 hc0
      exact ih (.symE s' false) c0 hc0 (harg s' hs')

/-- `_prepare` keeps the cache good (starting from the empty cache). -/
theorem prepareFirstK_good (g : Grammar) (k : Nat) (hk : 1 ≤ k) :
    GoodCache g k (prepareFirstK g k) := by
  unfold prepareFirstK
  apply foldl_inv (GoodCache g k) _ _ _ (by intro p hp; cases hp)
  intro c _ hc _
  apply foldl_inv (GoodCache g k) _ _ _ hc
  intro c' n hc' _
  exact (expandFuel_good g k hk firstKFuel (.symE (.nt n) true) c' hc'
    (by intro h; cases h)).2

theorem mem_tuplesUpTo (T : Finset Tok) : ∀ (k : Nat) (l : List Tok),
    l ∈ tuplesUpTo T k ↔ l.length ≤ k ∧ ∀ t ∈ l, t ∈ T := by
  intro k
  induction k with
  | zero =>
    intro l
    constructor
    · intro h
      rw [tuplesUpTo, Finset.mem_singleton] at h
      subst h
      exact ⟨by simp, by simp⟩
    · intro ⟨hlen, _⟩
      rw [tuplesUpTo, Finset.mem_singleton]
      exact List.length_eq_zero.1 (Nat.le_zero.1 hlen)
  | succ k ih =>
    intro l
    constructor
    · intro h
      rw [tuplesUpTo] at h
      rcases Finset.mem_insert.1 h with rfl | h2
      · exact ⟨by simp, by simp⟩
      · rcases Finset.mem_image₂.1 h2 with ⟨t, ht, w, hw, rfl⟩
        rcases (ih w).1 hw with ⟨hlen, htok⟩
        refine ⟨by simpa using Nat.succ_le_succ hlen, ?_⟩
        intro t' ht'
        rcases List.mem_cons.1 ht' with rfl | h3
        · exact ht
        · exact htok t' h3
    · intro ⟨hlen, htok⟩
      rw [tuplesUpTo]
      cases l with
      | nil => exact Finset.mem_insert_self _ _
      | cons t w =>
        apply Finset.mem_insert_of_mem
        apply Finset.mem_image₂.2
        refine ⟨t, htok t (by simp), w, ?_, rfl⟩
        apply (ih w).2
        refine ⟨by simpa using Nat.le_of_succ_le_succ (by simpa using hlen), ?_⟩
        intro t' ht'
        exact htok t' (List.mem_cons_of_mem _ ht')

theorem card_tuplesUpTo (T : Finset Tok) : ∀ k : Nat,
    (tuplesUpTo T k).card ≤ ∑ i ∈ Finset.range (k + 1), T.card ^ i := by
  intro k
  induction k with
  | zero => simp [tuplesUpTo]
  | succ k ih =>
    rw [tuplesUpTo, geom_sum_succ]
    calc (insert [] (Finset.image₂ List.cons T (tuplesUpTo T k))).card
        ≤ (Finset.image₂ List.cons T (tuplesUpTo T k)).card + 1 :=
          Finset.card_insert_le _ _
      _ ≤ T.card * (tuplesUpTo T k).card + 1 := by
          exact Nat.add_le_add_right (Finset.card_image₂_le _ _ _) 1
      _ ≤ T.card * (∑ i ∈ Finset.range (k + 1), T.card ^ i) + 1 := by
          exact Nat.add_le_add_right (Nat.mul_le_mul_left _ ih) 1

theorem goodSet_subset_tuplesUpTo {g : Grammar} {k : Nat} {s : List Tup}
    (h : GoodSet g k s) :
    s.toFinset ⊆ tuplesUpTo (allTokensList g).toFinset k := by
  intro l hl
  rw [List.mem_toFinset] at hl
  rcases h l hl with ⟨hlen, htok⟩
  apply (mem_tuplesUpTo _ k l).2
  exact ⟨hlen, fun t ht => List.mem_toFinset.2 (htok t ht)⟩

/-! ## Conflict detection of `_build_actions`

A successful action build leaves every completed (non-accept) item's lookahead
bound to that item's own reduce action: conflicts can never be silently
resolved. -/

theorem alistGet?_alistSet_self {α β : Type} [DecidableEq α]
    (l : List (α × β)) (k : α) (v : β) :
    alistGet? (alistSet l k v) k = some v := by
  induction l with
  | nil => simp [alistSet, alistGet?]
  | cons p rest ih =>
    obtain ⟨k', v'⟩ := p
    by_cases hk : k' == k
    · simp [alistSet, hk, alistGet?]
    · simp only [alistSet, if_neg hk]
      unfold alistGet?
      rw [List.find?_cons_of_neg _ (by simpa using hk)]
      exact ih

theorem alistGet?_alistSet_ne {α β : Type} [DecidableEq α]
    (l : List (α × β)) (k w : α) (v : β) (h : w ≠ k) :
    alistGet? (alistSet l k v) w = alistGet? l w := by
  induction l with
  | nil =>
    simp only [alistSet, alistGet?]
    rw [List.find?_cons_of_neg _ (by simp; exact fun he => h he.symm)]
  | cons p rest ih =>
    obtain ⟨k', v'⟩ := p
    by_cases hk : k' == k
    · simp only [alistSet, if_pos hk]
      unfold alistGet?
      by_cases hw : k' == w
      · have : w = k := by
          rw [← (by simpa using hw : k' = w)]
          simpa using hk
        exact absurd this h
      · rw [List.find?_cons_of_neg _ (by simpa using hw),
          List.find?_cons_of_neg _ (by simpa using hw)]
    · simp only [alistSet, if_neg hk]
      unfold alistGet?
      by_cases hw : k' == w
      · rw [List.find?_cons_of_pos _ (by simpa using hw),
          List.find?_cons_of_pos _ (by simpa using hw)]
      · rw [List.find?_cons_of_neg _ (by simpa using hw),
          List.find?_cons_of_neg _ (by simpa using hw)]
        exact ih

theorem shiftActionStep_preserves {actions actions' : List (Tup × LAction)}
    {u w : Tup} {r : Rule} (h : shiftActionStep actions u = .ok actions')
    (hb : alistGet? actions w = some (.reduce r)) :
    alistGet? actions' w = some (.reduce r) := by
  unfold shiftActionStep at h
  cases hget : alistGet? actions u with
  | none =>
    rw [hget] at h
    cases h
    have hne : w ≠ u := by
      intro he
      rw [he, hget] at hb
      cases hb
    rw [alistGet?_alistSet_ne _ _ _ _ hne]
    exact hb
  | some a =>
    rw [hget] at h
    cases a with
    | shift =>
      simp only [] at h
      cases h
      have hne : w ≠ u := by
        intro he
        rw [he, hget] at hb
        cases hb
      rw [alistGet?_alistSet_ne _ _ _ _ hne]
      exact hb
    | reduce r' => cases h
    | accept => cases h

theorem shiftFold_preserves {conts : List Tup} :
    ∀ {actions actions' : List (Tup × LAction)} {w : Tup} {r : Rule},
    conts.foldlM shiftActionStep actions = .ok actions' →
    alistGet? actions w = some (.reduce r) →
    alistGet? actions' w = some (.reduce r) := by
  induction conts with
  | nil =>
    intro actions actions' w r h hb
    cases h
    exact hb
  | cons u rest ih =>
    intro actions actions' w r h hb
    rw [List.foldlM_cons] at h
    cases hs : shiftActionStep actions u with
    | error e => rw [hs] at h; cases h
    | ok acts1 =>
      rw [hs] at h
      exact ih h (shiftActionStep_preserves hs hb)

theorem buildActionStep_preserves {g : Grammar} {k : Nat}
    {acc out : List (Tup × LAction) × FCache} {x : LItem} {w : Tup} {r : Rule}
    (h : buildActionStep g k acc x = .ok out)
    (hb : alistGet? acc.1 w = some (.reduce r)) :
    alistGet? out.1 w = some (.reduce r) := by
  unfold buildActionStep at h
  split at h
  · -- dot not at the end
    split at h
    · -- next symbol: none
      cases h
      exact hb
    · -- next symbol: some s
      split at h
      · -- nonterminal: skipped
        cases h
        exact hb
      · -- terminal: shift lookaheads
        unfold shiftMerge at h
        cases hf : (firstKQueryC g k acc.2 (x.rule.rhs.drop x.rulePos) x.cont).1.foldlM
            shiftActionStep acc.1 with
        | error e => rw [hf, exceptBind_error] at h; cases h
        | ok acts1 =>
          rw [hf, exceptBind_ok] at h
          cases h
          exact shiftFold_preserves hf hb
  · -- completed item
    split at h
    · -- accept
      cases hget : alistGet? acc.1 x.cont with
      | some a => rw [hget] at h; cases h
      | none =>
        rw [hget] at h
        cases h
        have hne : w ≠ x.cont := by
          intro he
          rw [he, hget] at hb
          cases hb
        rw [alistGet?_alistSet_ne _ _ _ _ hne]
        exact hb
    · -- reduce
      cases hget : alistGet? acc.1 x.cont with
      | some a => rw [hget] at h; cases a <;> simp at h
      | none =>
        rw [hget] at h
        cases h
        have hne : w ≠ x.cont := by
          intro he
          rw [he, hget] at hb
          cases hb
        rw [alistGet?_alistSet_ne _ _ _ _ hne]
        exact hb

theorem actionsFold_preserves {values : List LItem} {g : Grammar} {k : Nat} :
    ∀ {acc out : List (Tup × LAction) × FCache} {w : Tup} {r : Rule},
    values.foldlM (buildActionStep g k) acc = .ok out →
    alistGet? acc.1 w = some (.reduce r) →
    alistGet? out.1 w = some (.reduce r) := by
  induction values with
  | nil =>
    intro acc out w r h hb
    cases h
    exact hb
  | cons y ys ih =>
    intro acc out w r h hb
    rw [List.foldlM_cons] at h
    cases hs : buildActionStep g k acc y with
    | error e => rw [hs] at h; cases h
    | ok acc1 =>
      rw [hs] at h
      exact ih h (buildActionStep_preserves hs hb)

theorem buildActionStep_establishes {g : Grammar} {k : Nat}
    {acc out : List (Tup × LAction) × FCache} {x : LItem}
    (h : buildActionStep g k acc x = .ok out)
    (hcomplete : ¬ x.rulePos < x.rule.rlen)
    (hnacc : ¬ (x.rule.lhs = newStartName ∧ x.cont = [])) :
    alistGet? out.1 x.cont = some (.reduce x.rule) := by
  unfold buildActionStep at h
  rw [if_neg hcomplete, if_neg hnacc] at h
  cases hget : alistGet? acc.1 x.cont with
  | some a => rw [hget] at h; cases a <;> simp at h
  | none =>
    rw [hget] at h
    cases h
    exact alistGet?_alistSet_self _ _ _

/-- A successful `_build_actions` run binds every completed non-accept item's
lookahead to that item's own reduce action: no shift/reduce or reduce/reduce
conflict is ever silently resolved. -/
theorem actionsFold_ok_reduce {values : List LItem} {g : Grammar} {k : Nat} :
    ∀ {acc out : List (Tup × LAction) × FCache} {x : LItem},
    values.foldlM (buildActionStep g k) acc = .ok out →
    x ∈ values → ¬ x.rulePos < x.rule.rlen →
    ¬ (x.rule.lhs = newStartName ∧ x.cont = []) →
    alistGet? out.1 x.cont = some (.reduce x.rule) := by
  induction values with
  | nil =>
    intro acc out x _ hx
    cases hx
  | cons y ys ih =>
    intro acc out x h hx hcomplete hnacc
    rw [List.foldlM_cons] at h
    cases hs : buildActionStep g k acc y with
    | error e => rw [hs] at h; cases h
    | ok acc1 =>
      rw [hs] at h
      rcases List.mem_cons.1 hx with rfl | hx2
      · exact actionsFold_preserves h
          (buildActionStep_establishes hs hcomplete hnacc)
      · exact ih h hx2 hcomplete hnacc

/-! ## Structure of the canonical collection

The worklist loop of `VGkBuilder.build` fills the gotos of exactly the
registered (canonical) nodes; the value-equal duplicates returned by
`_add_table` on re-discovery keep an empty gotos map. -/

theorem sameSet_refl {α : Type} [DecidableEq α] (l : List α) :
    sameSet l l = true := by
  unfold sameSet
  simp [List.all_eq_true]

theorem installTable_snd_nodes (st : VSt) (closed : List LItem) (c : FCache) :
    (installTable st closed c).2.nodes = st.nodes ++ [{ values := closed, gotos := [] }] := by
  unfold installTable
  split <;> rfl

theorem installTable_fst (st : VSt) (closed : List LItem) (c : FCache) :
    (installTable st closed c).1 = st.nodes.length := by
  unfold installTable
  split <;> rfl

theorem installTable_regwl (st : VSt) (closed : List LItem) (c : FCache) :
    ((installTable st closed c).2.registry = st.registry ∧
      (installTable st closed c).2.worklist = st.worklist ∧
      ∃ rid ∈ st.registry, sameSet (st.valuesOf rid) closed = true) ∨
    ((installTable st closed c).2.registry = st.registry ++ [st.nodes.length] ∧
      (installTable st closed c).2.worklist = st.worklist ++ [st.nodes.length]) := by
  unfold installTable
  split
  · rename_i hany
    rcases List.any_eq_true.1 hany with ⟨rid, hrid, hss⟩
    exact .inl ⟨rfl, rfl, rid, hrid, hss⟩
  · exact .inr ⟨rfl, rfl⟩

theorem valuesOf_installTable (st : VSt) (closed : List LItem) (c : FCache)
    (j : Nat) (hj : j < st.nodes.length) :
    (installTable st closed c).2.valuesOf j = st.valuesOf j := by
  unfold VSt.valuesOf
  rw [installTable_snd_nodes, List.get?_eq_getElem?, List.get?_eq_getElem?,
    List.getElem?_append_left hj]

theorem gotosOf_installTable (st : VSt) (closed : List LItem) (c : FCache)
    (j : Nat) (hj : j < st.nodes.length) :
    gotosOf (installTable st closed c).2 j = gotosOf st j := by
  unfold gotosOf
  rw [installTable_snd_nodes, List.get?_eq_getElem?, List.get?_eq_getElem?,
    List.getElem?_append_left hj]

theorem valuesOf_installTable_fresh (st : VSt) (closed : List LItem) (c : FCache) :
    (installTable st closed c).2.valuesOf st.nodes.length = closed := by
  unfold VSt.valuesOf
  rw [installTable_snd_nodes, List.get?_eq_getElem?,
    List.getElem?_append_right (Nat.le_refl _)]
  simp

theorem gotosOf_installTable_fresh (st : VSt) (closed : List LItem) (c : FCache) :
    gotosOf (installTable st closed c).2 st.nodes.length = [] := by
  unfold gotosOf
  rw [installTable_snd_nodes, List.get?_eq_getElem?,
    List.getElem?_append_right (Nat.le_refl _)]
  simp

theorem installTable_len (st : VSt) (closed : List LItem) (c : FCache) :
    (installTable st closed c).2.nodes.length = st.nodes.length + 1 := by
  rw [installTable_snd_nodes]
  simp

theorem addTable_ok {g : Grammar} {k : Nat} {st st' : VSt} {pend : List LItem}
    {tid : Nat} (h : addTable g k st pend = .ok (tid, st')) :
    ∃ closed c, (tid, st') = installTable st closed c ∧
      tid = st.nodes.length := by
  unfold addTable at h
  cases hc : completeTable g k { closed := [], pending := pend } st.cache
      closureFuel with
  | error e => rw [hc, exceptBind_error] at h; cases h
  | ok pr =>
    rw [hc, exceptBind_ok] at h
    injection h with h3
    refine ⟨pr.1, pr.2, h3.symm, ?_⟩
    have h4 := congrArg Prod.fst h3
    rw [installTable_fst] at h4
    exact h4.symm

theorem addGoto_get {st : VSt} {id : Nat} {nd : VNode}
    (hget : st.nodes.get? id = some nd) (s : Sym) (tid : Nat) :
    (st.addGoto id s tid).nodes =
      st.nodes.set id { nd with gotos := nd.gotos ++ [(s, tid)] } ∧
    (st.addGoto id s tid).registry = st.registry ∧
    (st.addGoto id s tid).worklist = st.worklist ∧
    (st.addGoto id s tid).cache = st.cache := by
  unfold VSt.addGoto
  rw [hget]
  exact ⟨rfl, rfl, rfl, rfl⟩

theorem get?_of_lt {l : List VNode} {j : Nat} (hj : j < l.length) :
    ∃ nd, l.get? j = some nd := by
  cases hg : l.get? j with
  | none =>
    rw [List.get?_eq_none] at hg
    omega
  | some nd => exact ⟨nd, rfl⟩

theorem addGoto_len {st : VSt} {id : Nat} {nd : VNode}
    (hget : st.nodes.get? id = some nd) (s : Sym) (tid : Nat) :
    (st.addGoto id s tid).nodes.length = st.nodes.length := by
  rw [(addGoto_get hget s tid).1]
  simp

theorem addGoto_valuesOf {st : VSt} {id : Nat} {nd : VNode}
    (hget : st.nodes.get? id = some nd) (s : Sym) (tid : Nat) (j : Nat) :
    (st.addGoto id s tid).valuesOf j = st.valuesOf j := by
  unfold VSt.valuesOf
  rw [(addGoto_get hget s tid).1]
  by_cases hj : j = id
  · subst hj
    have hlt : j < st.nodes.length := by
      by_contra hge
      rw [List.get?_eq_none.2 (by omega)] at hget
      cases hget
    rw [List.get?_eq_getElem?, List.getElem?_set_self (by omega), hget]
    rfl
  · rw [List.get?_eq_getElem?, List.getElem?_set_ne (fun he => hj he.symm),
      ← List.get?_eq_getElem?]

theorem addGoto_gotosOf_ne {st : VSt} {id : Nat} {nd : VNode}
    (hget : st.nodes.get? id = some nd) (s : Sym) (tid : Nat) (j : Nat)
    (hj : j ≠ id) :
    gotosOf (st.addGoto id s tid) j = gotosOf st j := by
  unfold gotosOf
  rw [(addGoto_get hget s tid).1]
  rw [List.get?_eq_getElem?, List.getElem?_set_ne (fun he => hj he.symm),
    ← List.get?_eq_getElem?]

theorem addGoto_gotosOf_self {st : VSt} {id : Nat} {nd : VNode}
    (hget : st.nodes.get? id = some nd) (s : Sym) (tid : Nat) :
    gotosOf (st.addGoto id s tid) id = gotosOf st id ++ [(s, tid)] := by
  unfold gotosOf
  rw [(addGoto_get hget s tid).1]
  have hlt : id < st.nodes.length := by
    by_contra hge
    rw [List.get?_eq_none.2 (by omega)] at hget
    cases hget
  rw [List.get?_eq_getElem?, List.getElem?_set_self (by omega), hget]
  rfl

theorem processEdges_spec (g : Grammar) (k : Nat) (id : Nat) :
    ∀ (edges : List (Sym × List LItem)) (st st' : VSt),
    processEdges g k id st edges = .ok st' →
    id < st.nodes.length →
    (∀ r ∈ st.registry, r < st.nodes.length) →
    st.nodes.length ≤ st'.nodes.length ∧
    (∀ j, j < st.nodes.length → st'.valuesOf j = st.valuesOf j) ∧
    (∀ j, j < st.nodes.length → j ≠ id → gotosOf st' j = gotosOf st j) ∧
    (gotosOf st' id).map Prod.fst
      = (gotosOf st id).map Prod.fst ++ edges.map Prod.fst ∧
    (∀ e ∈ gotosOf st' id, e ∈ gotosOf st id ∨
      (e.2 < st'.nodes.length ∧ ∃ rid ∈ st'.registry,
        sameSet (st'.valuesOf rid) (st'.valuesOf e.2) = true)) ∧
    (∃ new : List Nat, st'.registry = st.registry ++ new ∧
      st'.worklist = st.worklist ++ new ∧ new.Nodup ∧
      (∀ i ∈ new, st.nodes.length ≤ i ∧ i < st'.nodes.length ∧
        gotosOf st' i = [])) := by
  intro edges
  induction edges with
  | nil =>
    intro st st' h hid hreg
    cases h
    exact ⟨Nat.le_refl _, fun j _ => rfl, fun j _ _ => rfl, by simp,
      fun e he => .inl he, [], by simp, by simp, List.nodup_nil,
      fun i hi => absurd hi (List.not_mem_nil i)⟩
  | cons e0 rest ih =>
    intro st st' h hid hreg
    obtain ⟨s, pend⟩ := e0
    unfold processEdges at h
    rw [List.foldlM_cons] at h
    cases hpe : processEdge g k id st (s, pend) with
    | error er => rw [hpe] at h; cases h
    | ok st1 =>
      rw [hpe] at h
      -- dissect the single edge installation
      unfold processEdge at hpe
      cases hat : addTable g k st pend with
      | error er => rw [hat, exceptBind_error] at hpe; cases hpe
      | ok pr =>
        rw [hat, exceptBind_ok] at hpe
        injection hpe with hpe1
        rcases addTable_ok hat with ⟨closed, c, hinst, htid⟩
        have hsnd : pr.2 = (installTable st closed c).2 := congrArg Prod.snd hinst
        have hlenI : pr.2.nodes.length = st.nodes.length + 1 := by
          rw [hsnd, installTable_len]
        have hgetI : ∃ nd, pr.2.nodes.get? id = some nd := by
          apply get?_of_lt
          omega
        rcases hgetI with ⟨nd, hnd⟩
        have hlen1 : st1.nodes.length = st.nodes.length + 1 := by
          rw [← hpe1, addGoto_len hnd, hlenI]
        have hval1 : ∀ j, j < st.nodes.length → st1.valuesOf j = st.valuesOf j := by
          intro j hj
          rw [← hpe1, addGoto_valuesOf hnd, hsnd, valuesOf_installTable _ _ _ _ hj]
        have hvalTid : st1.valuesOf pr.1 = closed := by
          rw [← hpe1, addGoto_valuesOf hnd, hsnd, htid, valuesOf_installTable_fresh]
        have hgoto1ne : ∀ j, j ≠ id → j < st.nodes.length →
            gotosOf st1 j = gotosOf st j := by
          intro j hjne hj
          rw [← hpe1, addGoto_gotosOf_ne hnd _ _ _ hjne, hsnd,
            gotosOf_installTable _ _ _ _ hj]
        have hgotoTid : gotosOf st1 pr.1 = [] := by
          have hne : pr.1 ≠ id := by omega
          rw [← hpe1, addGoto_gotosOf_ne hnd _ _ _ hne, hsnd, htid,
            gotosOf_installTable_fresh]
        have hgoto1id : gotosOf st1 id = gotosOf st id ++ [(s, pr.1)] := by
          rw [← hpe1, addGoto_gotosOf_self hnd, hsnd,
            gotosOf_installTable _ _ _ _ hid]
        have hrw1 : st1.registry = pr.2.registry ∧ st1.worklist = pr.2.worklist := by
          rw [← hpe1]
          exact ⟨((addGoto_get hnd s pr.1).2.1), ((addGoto_get hnd s pr.1).2.2.1)⟩
        -- registry of the intermediate state
        have hregwl := installTable_regwl st closed c
        have hreg1 : ∀ r ∈ st1.registry, r < st1.nodes.length := by
          intro r hr
          rw [hrw1.1, hsnd] at hr
          rcases hregwl with ⟨hr1, _, _⟩ | ⟨hr1, _⟩
          · rw [hr1] at hr
            have := hreg r hr
            omega
          · rw [hr1] at hr
            rcases List.mem_append.1 hr with h1 | h1
            · have := hreg r h1
              omega
            · rw [List.mem_singleton.1 h1]
              omega
        have hid1 : id < st1.nodes.length := by omega
        rcases ih st1 st' h hid1 hreg1 with
          ⟨ihlen, ihval, ihgne, ihkeys, ihedges, new1, ihr, ihw, ihnd, ihnew⟩
        refine ⟨by omega, ?_, ?_, ?_, ?_, ?_⟩
        · intro j hj
          rw [ihval j (by omega), hval1 j hj]
        · intro j hj hjne
          rw [ihgne j (by omega) hjne, hgoto1ne j hjne hj]
        · rw [ihkeys, hgoto1id]
          simp
        · intro e he
          rcases ihedges e he with h1 | h1
          · rw [hgoto1id] at h1
            rcases List.mem_append.1 h1 with h2 | h2
            · exact .inl h2
            · -- the freshly installed edge: value-equal to a registry node
              rw [List.mem_singleton.1 h2]
              right
              constructor
              · simp only []
                omega
              · have hvt : st'.valuesOf pr.1 = closed := by
                  rw [ihval pr.1 (by omega), hvalTid]
                rcases hregwl with ⟨hr1, _, rid, hrid, hss⟩ | ⟨hr1, _⟩
                · refine ⟨rid, ?_, ?_⟩
                  · rw [ihr, hrw1.1, hsnd, hr1]
                    exact List.mem_append_left _ hrid
                  · have hvr : st'.valuesOf rid = st.valuesOf rid := by
                      rw [ihval rid (by have := hreg rid hrid; omega),
                        hval1 rid (hreg rid hrid)]
                    rw [hvr, hvt]
                    exact hss
                · refine ⟨pr.1, ?_, ?_⟩
                  · rw [ihr, hrw1.1, hsnd, hr1, htid]
                    exact List.mem_append_left _ (List.mem_append_right _ (by simp))
                  · exact sameSet_refl _
          · exact .inr h1
        · rcases hregwl with ⟨hr1, hw1, _⟩ | ⟨hr1, hw1⟩
          · refine ⟨new1, ?_, ?_, ihnd, ?_⟩
            · rw [ihr, hrw1.1, hsnd, hr1]
            · rw [ihw, hrw1.2, hsnd, hw1]
            · intro i hi
              have := ihnew i hi
              exact ⟨by omega, this.2.1, this.2.2⟩
          · refine ⟨st.nodes.length :: new1, ?_, ?_, ?_, ?_⟩
            · rw [ihr, hrw1.1, hsnd, hr1]
              simp
            · rw [ihw, hrw1.2, hsnd, hw1]
              simp
            · refine List.Nodup.cons ?_ ihnd
              intro hmem
              have := (ihnew _ hmem).1
              omega
            · intro i hi
              rcases List.mem_cons.1 hi with rfl | h2
              · refine ⟨Nat.le_refl _, by omega, ?_⟩
                have hne : st.nodes.length ≠ id := by omega
                rw [ihgne _ (by omega) hne, ← htid]
                exact hgotoTid
              · have := ihnew i h2
                exact ⟨by omega, this.2.1, this.2.2⟩

theorem vgkLoop_inv (g : Grammar) (k : Nat) :
    ∀ (fuel : Nat) (st st' : VSt), vgkLoop g k st fuel = .ok st' → VInv st →
    VInv st' ∧ st'.worklist = [] := by
  intro fuel
  induction fuel with
  | zero => intro st st' h _; cases h
  | succ fuel ihf =>
    intro st st' h hinv
    obtain ⟨hrnd, hwnd, hwr, hrb, hwg, hpg⟩ := hinv
    unfold vgkLoop at h
    cases hwl : st.worklist with
    | nil =>
      rw [hwl] at h
      cases h
      exact ⟨⟨hrnd, hwnd, hwr, hrb, hwg, hpg⟩, hwl⟩
    | cons id rest =>
      rw [hwl] at h
      simp only [] at h
      have hidreg : id ∈ st.registry := hwr id (by rw [hwl]; simp)
      have hidlen : id < st.nodes.length := hrb id hidreg
      have hidrest : id ∉ rest := by
        rw [hwl] at hwnd
        exact (List.nodup_cons.1 hwnd).1
      have hrestnd : rest.Nodup := by
        rw [hwl] at hwnd
        exact (List.nodup_cons.1 hwnd).2
      cases hpe : processEdges g k id { st with worklist := rest }
          (gotoMap (VSt.valuesOf { st with worklist := rest } id)) with
      | error e => rw [hpe] at h; cases h
      | ok st2 =>
        rw [hpe] at h
        rcases processEdges_spec g k id _ { st with worklist := rest } st2 hpe
            hidlen hrb with
          ⟨sblen, sbval, sbgne, sbkeys, sbedges, new, sbr, sbw, sbnd, sbnew⟩
        have hmlen : ({ st with worklist := rest } : VSt).nodes.length
            = st.nodes.length := rfl
        rw [hmlen] at sblen sbval sbgne sbnew
        have hvmid : ∀ j, VSt.valuesOf { st with worklist := rest } j
            = st.valuesOf j := fun _ => rfl
        have hgmid : ∀ j, gotosOf { st with worklist := rest } j
            = gotosOf st j := fun _ => rfl
        have hrmid : ({ st with worklist := rest } : VSt).registry
            = st.registry := rfl
        have hwmid : ({ st with worklist := rest } : VSt).worklist = rest := rfl
        simp only [hvmid] at sbval sbkeys
        simp only [hgmid] at sbgne sbkeys sbedges
        rw [hrmid] at sbr
        rw [hwmid] at sbw
        have hgid : gotosOf st id = [] := hwg id hidreg (by rw [hwl]; simp)
        have hinv2 : VInv st2 := by
          refine ⟨?_, ?_, ?_, ?_, ?_, ?_⟩
          · -- registry nodup
            rw [sbr]
            refine List.Nodup.append hrnd sbnd ?_
            intro a ha1 ha2
            have h1 := hrb a ha1
            have h2 := (sbnew a ha2).1
            omega
          · -- worklist nodup
            rw [sbw]
            refine List.Nodup.append hrestnd sbnd ?_
            intro a ha1 ha2
            have h1 := hrb a (hwr a (by rw [hwl]; exact List.mem_cons_of_mem _ ha1))
            have h2 := (sbnew a ha2).1
            omega
          · -- worklist in registry
            intro j hj
            rw [sbw] at hj
            rw [sbr]
            rcases List.mem_append.1 hj with h1 | h1
            · exact List.mem_append_left _
                (hwr j (by rw [hwl]; exact List.mem_cons_of_mem _ h1))
            · exact List.mem_append_right _ h1
          · -- registry bounded
            intro j hj
            rw [sbr] at hj
            rcases List.mem_append.1 hj with h1 | h1
            · have := hrb j h1
              omega
            · exact (sbnew j h1).2.1
          · -- unprocessed nodes have no gotos
            intro j hj hjw
            rw [sbw] at hjw
            rcases List.mem_append.1 hjw with h1 | h1
            · have hjne : j ≠ id := fun he => hidrest (he ▸ h1)
              have hjlen : j < st.nodes.length :=
                hrb j (hwr j (by rw [hwl]; exact List.mem_cons_of_mem _ h1))
              rw [sbgne j hjlen hjne]
              exact hwg j (hwr j (by rw [hwl]; exact List.mem_cons_of_mem _ h1))
                (by rw [hwl]; exact List.mem_cons_of_mem _ h1)
            · exact (sbnew j h1).2.2
          · -- processed nodes carry the full goto map
            intro j hj hjw
            rw [sbw] at hjw
            rw [sbr] at hj
            have hjnew : j ∉ new := fun hn =>
              hjw (List.mem_append_right _ hn)
            have hjreg : j ∈ st.registry := by
              rcases List.mem_append.1 hj with h1 | h1
              · exact h1
              · exact absurd h1 hjnew
            have hjlen : j < st.nodes.length := hrb j hjreg
            by_cases hjid : j = id
            · subst hjid
              constructor
              · rw [sbkeys, hgid]
                have hv : st2.valuesOf j = st.valuesOf j := sbval j hjlen
                rw [hv]
                simp
              · intro e he
                rcases sbedges e he with h1 | h1
                · rw [hgid] at h1
                  cases h1
                · exact h1
            · have hjold : j ∉ st.worklist := by
                rw [hwl]
                intro hmem
                rcases List.mem_cons.1 hmem with h1 | h1
                · exact hjid h1
                · exact hjw (List.mem_append_left _ h1)
              rcases hpg j hjreg hjold with ⟨hkeys, htargets⟩
              have hgj : gotosOf st2 j = gotosOf st j := sbgne j hjlen hjid
              have hvj : st2.valuesOf j = st.valuesOf j := sbval j hjlen
              constructor
              · rw [hgj, hvj]
                exact hkeys
              · intro e he
                rw [hgj] at he
                rcases htargets e he with ⟨hb, rid, hrid, hss⟩
                refine ⟨by omega, rid, ?_, ?_⟩
                · rw [sbr]
                  exact List.mem_append_left _ hrid
                · rw [sbval rid (hrb rid hrid), sbval e.2 hb]
                  exact hss
        exact ihf st2 st' h hinv2

theorem buildVGk_inv {g : Grammar} {k fuel : Nat} {root : Nat} {st : VSt}
    (h : buildVGk g k fuel = .ok (root, st)) : VInv st ∧ st.worklist = [] := by
  unfold buildVGk at h
  cases hp : mkFirstKProv g k with
  | error e => rw [hp] at h; cases h
  | ok p =>
    rw [hp, exceptBind_ok] at h
    cases ho : onlyOf (p.g.rulesByLhsOf newStartName) with
    | error e => rw [ho, exceptBind_error] at h; cases h
    | ok startRule =>
      rw [ho, exceptBind_ok] at h
      simp only [] at h
      cases hat : addTable p.g k
          { nodes := [], registry := [], worklist := [], cache := p.cache }
          [{ rule := startRule, rulePos := 0, cont := [] }] with
      | error e => rw [hat, exceptBind_error] at h; cases h
      | ok pr =>
        rw [hat, exceptBind_ok] at h
        obtain ⟨rootv, stv⟩ := pr
        simp only [] at h
        cases hl : vgkLoop p.g k stv fuel with
        | error e => rw [hl, exceptBind_error] at h; cases h
        | ok stF =>
          rw [hl, exceptBind_ok] at h
          cases h
          rcases addTable_ok hat with ⟨closed, c, hinst, _⟩
          have hsnd : stv = (installTable
              { nodes := [], registry := [], worklist := [], cache := p.cache }
              closed c).2 := congrArg Prod.snd hinst
          have hinv1 : VInv stv := by
            rw [hsnd]
            unfold installTable
            rw [if_neg (by simp)]
            refine ⟨by simp, by simp, by simp, ?_, ?_, ?_⟩
            · intro idx hidx
              simp at hidx
              subst hidx
              simp
            · intro idx hidx _
              simp at hidx
              subst hidx
              unfold gotosOf
              simp
            · intro idx hidx hw
              simp at hidx
              subst hidx
              exact absurd (by simp) hw
          exact vgkLoop_inv p.g k fuel stv st hl hinv1


/-! ## Helper lemmas for the claim theorems -/

theorem workRun_step_eq {α : Type} [DecidableEq α] (f : α → Finset α)
    (closed pending res : Finset α) (x : α) (hx : x ∈ pending)
    (p' : Finset α) (hp : pending.erase x ∪ (f x \ insert x closed) = p')
    (h : WorkRun f (insert x closed) p' res) : WorkRun f closed pending res := by
  subst hp
  exact WorkRun.step _ _ _ x hx h

theorem splitSym_no_custom {s : Sym} {l : List Sym} (h : splitSym s = .ok l) :
    ∀ x ∈ l, x.isCustom = false := by
  cases s with
  | nt n =>
    by_cases hn : n = newStartName
    · simp [splitSym, hn] at h
    · simp only [splitSym, if_neg hn] at h
      cases h
      intro x hx
      rw [List.mem_singleton.1 hx]
      rfl
  | tm v =>
    simp only [splitSym] at h
    cases h
    intro x hx
    rcases List.mem_map.1 hx with ⟨c, _, hc⟩
    rw [← hc]
    rfl
  | custom t tk =>
    simp only [splitSym] at h
    cases h
    intro x hx
    cases hx

theorem splitRhs_no_custom {rhs : List Sym} : ∀ {l : List Sym},
    splitRhs rhs = .ok l → ∀ x ∈ l, x.isCustom = false := by
  induction rhs with
  | nil =>
    intro l h
    cases h
    intro x hx
    cases hx
  | cons s rest ih =>
    intro l h
    unfold splitRhs at h
    cases hs : splitSym s with
    | error e => rw [hs] at h; cases h
    | ok hd =>
      cases hr : splitRhs rest with
      | error e => rw [hs, hr] at h; cases h
      | ok tl =>
        rw [hs, hr] at h
        cases h
        intro x hx
        rcases List.mem_append.1 hx with h1 | h1
        · exact splitSym_no_custom hs x h1
        · exact ih hr x h1

theorem addRule_noCustom {g : Grammar} {r : Rule} (hg : NoCustom g)
    (hr : ∀ s ∈ r.rhs, s.isCustom = false) : NoCustom (g.addRule r) := by
  intro r' hr' s hs
  rcases addRule_rules g r with he | he <;> rw [he] at hr'
  · exact hg r' hr' s hs
  · rcases List.mem_append.1 hr' with h1 | h1
    · exact hg r' h1 s hs
    · rw [List.mem_singleton.1 h1] at hs
      exact hr s hs

theorem splitFold_noCustom (rules : List Rule) :
    ∀ {acc g2 : Grammar}, NoCustom acc →
    rules.foldlM (fun (acc : Grammar) r =>
      if r.lhs = newStartName then Except.ok acc
      else do
        let rhs ← splitRhs r.rhs
        Except.ok (acc.addRule { lhs := r.lhs, rhs := rhs })) acc = .ok g2 →
    NoCustom g2 := by
  induction rules with
  | nil =>
    intro acc g2 hacc h
    cases h
    exact hacc
  | cons r rest ih =>
    intro acc g2 hacc h
    rw [List.foldlM_cons] at h
    by_cases hlhs : r.lhs = newStartName
    · rw [if_pos hlhs] at h
      exact ih hacc h
    · rw [if_neg hlhs] at h
      cases hs : splitRhs r.rhs with
      | error e => rw [hs] at h; cases h
      | ok rhs =>
        rw [hs] at h
        refine ih ?_ h
        exact addRule_noCustom hacc (splitRhs_no_custom hs)

theorem split_noCustom {g : Grammar} {pr : Grammar × Grammar}
    (h : g.splitLongTerminals = .ok pr) : NoCustom pr.2 := by
  obtain ⟨g1, g2⟩ := pr
  unfold Grammar.splitLongTerminals at h
  split at h
  · cases ht : g.triggerNewStart with
    | error e => rw [ht] at h; cases h
    | ok g' =>
      rw [ht, exceptBind_ok] at h
      cases hf : List.foldlM (fun (acc : Grammar) r =>
          if r.lhs = newStartName then Except.ok acc
          else do
            let rhs ← splitRhs r.rhs
            Except.ok (acc.addRule { lhs := r.lhs, rhs := rhs }))
          { rules := [], nts := [], start := g'.start } g'.rules with
      | error e => rw [hf, exceptBind_error] at h; cases h
      | ok gn =>
        rw [hf, exceptBind_ok] at h
        cases h
        exact splitFold_noCustom g1.rules (by intro r hr; cases hr) hf
  · cases h

theorem trigger_noCustom {g g' : Grammar} (hg : NoCustom g)
    (h : g.triggerNewStart = .ok g') : NoCustom g' := by
  unfold Grammar.triggerNewStart at h
  split at h
  · cases h
    exact hg
  · split at h
    · cases h
      apply addRule_noCustom hg
      intro s hs
      rw [List.mem_singleton.1 hs]
      rfl
    · cases h

theorem alistAppend_mem : ∀ (l : List (String × List Rule)) (k : String)
    (r : Rule) (p : String × List Rule), p ∈ alistAppend l k r → ∀ r' ∈ p.2,
    (∃ q ∈ l, r' ∈ q.2) ∨ r' = r := by
  intro l
  induction l with
  | nil =>
    intro k r p hp r' hr'
    simp only [alistAppend] at hp
    rw [List.mem_singleton.1 hp] at hr'
    exact .inr (List.mem_singleton.1 hr')
  | cons q rest ih =>
    intro k r p hp r' hr'
    obtain ⟨k', rs⟩ := q
    simp only [alistAppend] at hp
    by_cases hk : (k' == k) = true
    · rw [if_pos hk] at hp
      rcases List.mem_cons.1 hp with rfl | hp2
      · rcases List.mem_append.1 hr' with h1 | h1
        · exact .inl ⟨(k', rs), by simp, h1⟩
        · exact .inr (List.mem_singleton.1 h1)
      · exact .inl ⟨p, List.mem_cons_of_mem _ hp2, hr'⟩
    · rw [if_neg hk] at hp
      rcases List.mem_cons.1 hp with rfl | hp2
      · exact .inl ⟨(k', rs), by simp, hr'⟩
      · rcases ih k r p hp2 r' hr' with ⟨q2, hq2, hq2'⟩ | h1
        · exact .inl ⟨q2, List.mem_cons_of_mem _ hq2, hq2'⟩
        · exact .inr h1

theorem rulesByLhsFold_mem (P : Rule → Prop) :
    ∀ (rs : List Rule) (acc : List (String × List Rule)),
    (∀ p ∈ acc, ∀ r ∈ p.2, P r) → (∀ r ∈ rs, P r) →
    ∀ p ∈ rs.foldl (fun acc r => alistAppend acc r.lhs r) acc, ∀ r ∈ p.2, P r := by
  intro rs
  induction rs with
  | nil =>
    intro acc hacc _ p hp
    exact hacc p hp
  | cons r rest ih =>
    intro acc hacc hrs p hp
    rw [List.foldl_cons] at hp
    refine ih (alistAppend acc r.lhs r) ?_
      (fun r' hr' => hrs r' (List.mem_cons_of_mem _ hr')) p hp
    intro q hq r' hr'
    rcases alistAppend_mem acc r.lhs r q hq r' hr' with ⟨q2, hq2, hq2'⟩ | rfl
    · exact hacc q2 hq2 r' hq2'
    · exact hrs r' (by simp)

theorem earleyConfig_noCustom {g : Grammar} {cfg : EConfig}
    (h : earleyConfig g = .ok cfg) :
    ∀ p ∈ cfg.rulesByLhs, ∀ r ∈ p.2, ∀ s ∈ r.rhs, s.isCustom = false := by
  unfold earleyConfig at h
  cases hs : g.splitLongTerminals with
  | error e => rw [hs] at h; cases h
  | ok pr =>
    obtain ⟨g1, g2⟩ := pr
    have hg2ns := split_noNewStart hs
    have hg2 : NoCustom g2 := split_noCustom hs
    rw [hs, exceptBind_ok] at h
    simp only [] at h
    by_cases hst : g2.start ∈ g2.nts
    · rw [if_pos hst] at h
      rw [trigger_of_noNewStart hg2ns.1 hst, exceptBind_ok] at h
      cases ho : onlyOf ((g2.addRule
          { lhs := newStartName, rhs := [.nt g2.start] }).rulesByLhsOf
          newStartName) with
      | error e => rw [ho, exceptBind_error] at h; cases h
      | ok startRule =>
        rw [ho, exceptBind_ok] at h
        cases h
        have hg3 : NoCustom (g2.addRule
            { lhs := newStartName, rhs := [.nt g2.start] }) := by
          apply addRule_noCustom hg2
          intro s hs'
          rw [List.mem_singleton.1 hs']
          rfl
        intro p hp r hr s hss
        exact rulesByLhsFold_mem (fun r => ∀ s ∈ r.rhs, s.isCustom = false)
          (g2.addRule { lhs := newStartName, rhs := [.nt g2.start] }).rules []
          (by intro p hp'; cases hp') (fun r hr' => hg3 r hr') p hp r hr s hss
    · rw [if_neg hst] at h
      cases h

/-! ## The claim theorems -/

/-- C1: the spec claims the Earley recognizer decides derivability and gives
the bracket-grammar answers; in the source, `EarleyParser._step` calls
`next_item.isTerminal()`, an attribute no symbol class defines, so the
faithful run raises `AttributeError` on every input; the claimed answers hold
only under the evidently intended `is_terminal` dispatch. -/
theorem earley_brackets_attribute_error :
    (∀ toks, earleyFaithful bracketsG toks = .error .attributeError) ∧
    earleyIntended bracketsG "" = .ok true ∧
    earleyIntended bracketsG "()" = .ok true ∧
    earleyIntended bracketsG "()()" = .ok true ∧
    earleyIntended bracketsG "((()))" = .ok true ∧
    earleyIntended bracketsG "(()" = .ok false ∧
    earleyIntended bracketsG "())" = .ok false ∧
    earleyIntended bracketsG ")(" = .ok false := by
  constructor
  · intro toks
    unfold earleyFaithful
    obtain ⟨cfg, hc⟩ : ∃ cfg, earleyConfig bracketsG = .ok cfg := ⟨_, rfl⟩
    rw [hc, exceptBind_ok]
    obtain ⟨n, hsr⟩ := earleyConfig_startRule hc
    exact earleyParse_faithful_error cfg n hsr toks
  · refine ⟨?_, ?_, ?_, ?_, ?_, ?_, ?_⟩ <;> decide

/-- C2: the spec claims `parse()` never raises on any input; the faithful
Earley run raises `AttributeError` on every input of the `equal_ab` grammar
(rejection is never reached). -/
theorem earley_equal_ab_attribute_error :
    ∀ toks, earleyFaithful equalABG toks = .error .attributeError := by
  intro toks
  unfold earleyFaithful
  obtain ⟨cfg, hc⟩ : ∃ cfg, earleyConfig equalABG = .ok cfg := ⟨_, rfl⟩
  rw [hc, exceptBind_ok]
  obtain ⟨n, hsr⟩ := earleyConfig_startRule hc
  exact earleyParse_faithful_error cfg n hsr toks

/-- C4: the FIRST_2 probes of the grammar `S -> S "a" S "b" | ""` give exactly
the three claimed sets. -/
theorem first2_probe_sets :
    (firstKProbe g4 2 [.nt "start"] []).map
      (fun s => sameSet s [[], ["a", "a"], ["a", "b"]]) = some true ∧
    (firstKProbe g4 2 [.nt "start"] ["a"]).map
      (fun s => sameSet s [["a"], ["a", "a"], ["a", "b"]]) = some true ∧
    (firstKProbe g4 2 [.nt "start", .tm "b", .nt "start"] []).map
      (fun s => sameSet s [["b"], ["a", "a"], ["a", "b"], ["b", "a"]]) =
      some true := by
  refine ⟨?_, ?_, ?_⟩ <;> decide

/-- C5 (counterexample): for `S -> "a" | ""` and k = 1 the computed set
`first_1[S] = {("a",), ()}` has 2 elements while `|T|^1 = 1`. -/
theorem first1_bound_counterexample :
    (firstSetOf g5 1 "S").toFinset.card = 2 ∧
    (allTokensList g5).toFinset.card ^ 1 = 1 ∧
    ¬ (firstSetOf g5 1 "S").toFinset.card ≤
      (allTokensList g5).toFinset.card ^ 1 := by
  refine ⟨?_, ?_, ?_⟩ <;> decide

/-- C5 (amended): every set the provider caches holds tuples of length at
most k over the terminal alphabet T, so its cardinality is at most
`sum_(i <= k) |T|^i` (the `|T|^k` bound of the claim fails because tuples
shorter than k are included). -/
theorem firstk_cache_bounded {g : Grammar} {k : Nat} {p : FirstKProv}
    (hk : 1 ≤ k) (hp : mkFirstKProv g k = .ok p) :
    ∀ e ∈ p.cache, e.2.toFinset.card ≤ ∑ i ∈ Finset.range (k + 1),
      (allTokensList p.g).toFinset.card ^ i ∧ ∀ l ∈ e.2, l.length ≤ k := by
  unfold mkFirstKProv at hp
  cases ht : g.triggerNewStart with
  | error e => rw [ht] at hp; cases hp
  | ok g' =>
    rw [ht, exceptBind_ok] at hp
    cases hp
    intro e he
    have hge := prepareFirstK_good g' k hk e he
    constructor
    · calc e.2.toFinset.card
          ≤ (tuplesUpTo (allTokensList g').toFinset k).card :=
            Finset.card_le_card (goodSet_subset_tuplesUpTo hge)
        _ ≤ ∑ i ∈ Finset.range (k + 1), (allTokensList g').toFinset.card ^ i :=
            card_tuplesUpTo _ k
    · intro l hl
      exact (hge l hl).1

theorem firstk_cache_bounded_witness :
    mkFirstKProv g5 1 = .ok p5 ∧
    ∃ e ∈ p5.cache, e.2.toFinset.card ≤ ∑ i ∈ Finset.range (1 + 1),
      (allTokensList p5.g).toFinset.card ^ i ∧ ∀ l ∈ e.2, l.length ≤ 1 := by
  refine ⟨rfl, (Sym.nt "S", [["a"], []]), by decide, ?_⟩
  exact firstk_cache_bounded (le_refl 1) (rfl : mkFirstKProv g5 1 = .ok p5)
    (Sym.nt "S", [["a"], []]) (by decide)

/-- C7 (counterexample): in `V_G^1` of `S -> "a" S | ""` the edge on "a" out
of the canonical node 2 targets node 4, a value-equal duplicate of node 2
that is not in the registry and whose gotos map is empty even though its goto
on "a" is non-empty. -/
theorem vgk_duplicate_goto_target :
    ∃ root st, buildVGk g7 1 vgkFuel = .ok (root, st) ∧
      alistGet? (gotosOf st root) (.tm "a") = some 2 ∧
      2 ∈ st.registry ∧
      alistGet? (gotosOf st 2) (.tm "a") = some 4 ∧
      4 ∉ st.registry ∧
      sameSet (st.valuesOf 4) (st.valuesOf 2) = true ∧
      gotosOf st 4 = [] ∧
      gotoMap (st.valuesOf 4) ≠ [] := by
  refine ⟨v7.1, v7.2, rfl, ?_, ?_, ?_, ?_, ?_, ?_, ?_⟩ <;> decide

/-- C7 (amended): after a successful build every registered item set carries
one goto edge per symbol with a non-empty goto, and every edge targets a node
value-equal to a registered one; edges may target value-equal duplicates with
empty gotos rather than the canonical node itself. -/
theorem vgk_registry_gotos_complete {g : Grammar} {k fuel root : Nat}
    {st : VSt} (h : buildVGk g k fuel = .ok (root, st)) :
    ∀ id ∈ st.registry,
      (gotosOf st id).map Prod.fst = (gotoMap (st.valuesOf id)).map Prod.fst ∧
      ∀ e ∈ gotosOf st id, e.2 < st.nodes.length ∧
        ∃ rid ∈ st.registry, sameSet (st.valuesOf rid) (st.valuesOf e.2) = true := by
  obtain ⟨hinv, hw⟩ := buildVGk_inv h
  intro id hid
  refine hinv.2.2.2.2.2 id hid ?_
  rw [hw]
  exact List.not_mem_nil id

theorem vgk_registry_gotos_complete_witness :
    (gotosOf v7.2 0).map Prod.fst = (gotoMap (v7.2.valuesOf 0)).map Prod.fst ∧
    ∀ e ∈ gotosOf v7.2 0, e.2 < v7.2.nodes.length ∧
      ∃ rid ∈ v7.2.registry,
        sameSet (v7.2.valuesOf rid) (v7.2.valuesOf e.2) = true :=
  vgk_registry_gotos_complete
    (rfl : buildVGk g7 1 vgkFuel = .ok (v7.1, v7.2)) 0 (by decide)

/-- C8: the worklist closure is order-independent: any two complete runs of
the pending loop from the same initial item set (any `pop` choice sequence)
produce the same closed set. -/
theorem closure_order_independent (g : Grammar) (k : Nat) (c : FCache)
    (I : Finset LItem) {r1 r2 : Finset LItem}
    (h1 : WorkRun (fun x => (closureExpand g k c x).toFinset) ∅ I r1)
    (h2 : WorkRun (fun x => (closureExpand g k c x).toFinset) ∅ I r2) :
    r1 = r2 :=
  workRun_unique h1 h2

theorem closure_order_independent_witness :
    (insert i8b (insert i8a ∅) : Finset LItem) = insert i8a (insert i8b ∅) := by
  apply closure_order_independent g8 1 [] (insert i8a (insert i8b ∅))
  · refine workRun_step_eq _ _ _ _ i8a (by decide) (insert i8b ∅) (by decide) ?_
    refine workRun_step_eq _ _ _ _ i8b (by decide) ∅ (by decide) ?_
    exact WorkRun.done _
  · refine workRun_step_eq _ _ _ _ i8b (by decide) (insert i8a ∅) (by decide) ?_
    refine workRun_step_eq _ _ _ _ i8a (by decide) ∅ (by decide) ?_
    exact WorkRun.done _

/-- C9 (counterexample): `split_long_terminals` on `S -> "ab"` returns a
receiver that differs from the original grammar: the call added the augmented
start rule to it. -/
theorem split_mutates_receiver :
    g9.splitLongTerminals = .ok p9 ∧ p9.1 ≠ g9 ∧
    p9.1.rules = g9.rules ++ [{ lhs := newStartName, rhs := [.nt "S"] }] := by
  refine ⟨rfl, ?_, ?_⟩ <;> decide

/-- C9 (amended): the returned new grammar never carries a rule whose lhs is
the augmented start, but the call is not pure: the receiver it returns is
exactly the receiver after triggering `new_start` (a mutation whenever the
augmented start did not exist yet). -/
theorem split_pure_amended {g : Grammar} {pr : Grammar × Grammar}
    (h : g.splitLongTerminals = .ok pr) :
    NoNewStart pr.2 ∧ g.triggerNewStart = .ok pr.1 := by
  obtain ⟨g1, g2⟩ := pr
  refine ⟨split_noNewStart h, ?_⟩
  unfold Grammar.splitLongTerminals at h
  split at h
  · cases ht : g.triggerNewStart with
    | error e => rw [ht] at h; cases h
    | ok g' =>
      rw [ht, exceptBind_ok] at h
      cases hf : List.foldlM (fun (acc : Grammar) r =>
          if r.lhs = newStartName then Except.ok acc
          else do
            let rhs ← splitRhs r.rhs
            Except.ok (acc.addRule { lhs := r.lhs, rhs := rhs }))
          { rules := [], nts := [], start := g'.start } g'.rules with
      | error e => rw [hf, exceptBind_error] at h; cases h
      | ok gn =>
        rw [hf, exceptBind_ok] at h
        cases h
        rfl
  · cases h

theorem split_pure_amended_witness :
    NoNewStart p9.2 ∧ g9.triggerNewStart = .ok p9.1 :=
  split_pure_amended rfl

/-- C10: `split_long_terminals` drops every custom (non-`StrTerminal`)
terminal from every rule, and the Earley configuration, which applies it
unconditionally, therefore operates on rules with those terminals removed;
concretely the rule `S -> custom "a"` becomes `S -> "a"`. -/
theorem split_drops_custom_terminals :
    (∀ (g : Grammar) (pr : Grammar × Grammar),
      g.splitLongTerminals = .ok pr → NoCustom pr.2) ∧
    (∀ (g : Grammar) (cfg : EConfig), earleyConfig g = .ok cfg →
      ∀ p ∈ cfg.rulesByLhs, ∀ r ∈ p.2, ∀ s ∈ r.rhs, s.isCustom = false) ∧
    p10.2.rules = [{ lhs := "S", rhs := [.tm "a"] }] := by
  refine ⟨?_, ?_, by decide⟩
  · intro g pr h
    exact split_noCustom h
  · intro g cfg h
    exact earleyConfig_noCustom h

/-- C3: with k = 2 the LR recognizer built for the seminar grammar accepts
"aabbb" and "aabba" and rejects "babba" and "a"; with k = 1 the table build
raises `ShiftReduceConflict`. -/
theorem lr2_seminar_grammar_results :
    (∃ cfg, buildLRCfg g3 2 vgkFuel = .ok cfg ∧
      lrParse cfg 2 eofTok (charToks "aabbb") parseFuel = .ok true ∧
      lrParse cfg 2 eofTok (charToks "aabba") parseFuel = .ok true ∧
      lrParse cfg 2 eofTok (charToks "babba") parseFuel = .ok false ∧
      lrParse cfg 2 eofTok (charToks "a") parseFuel = .ok false) ∧
    buildLRCfg g3 1 vgkFuel = .error .shiftReduce := by
  constructor
  · have hb : c3check = true := by decide
    unfold c3check at hb
    cases hcfg : buildLRCfg g3 2 vgkFuel with
    | error e =>
      rw [hcfg] at hb
      exact Bool.noConfusion hb
    | ok cfg =>
      rw [hcfg] at hb
      simp only [Bool.and_eq_true, beq_iff_eq] at hb
      exact ⟨cfg, rfl, hb.1.1.1, hb.1.1.2, hb.1.2, hb.2⟩
  · decide

/-- C6: a successful `_build_actions` run leaves every completed non-accept
item's lookahead bound to that item's own reduce action, so a shift/reduce or
reduce/reduce conflict can never be silently resolved: building conflicted
tables always raises the typed conflict error; concretely, the
balanced-parentheses grammar at k = 1 raises `ShiftReduceConflict`. -/
theorem lr_conflict_detection :
    (∀ (g : Grammar) (k : Nat) (c : FCache) (values : List LItem)
      (out : List (Tup × LAction) × FCache),
      buildActions g k c values = .ok out →
      ∀ x ∈ values, ¬ x.rulePos < x.rule.rlen →
      ¬ (x.rule.lhs = newStartName ∧ x.cont = []) →
      alistGet? out.1 x.cont = some (.reduce x.rule)) ∧
    buildLRCfg (metaparsed bracketsG) 1 vgkFuel = .error .shiftReduce := by
  constructor
  · intro g k c values out h x hx h1 h2
    exact actionsFold_ok_reduce h hx h1 h2
  · decide

end PL
